import Mathlib

/-!
Verification of the a4s AWS Signature V4 signing library.

JavaScript strings are modelled as lists of Unicode scalar values
(`List Char`), JavaScript byte buffers as `List Nat` (each entry a byte
value), and the SHA-256 / HMAC-SHA-256 primitives from node's `crypto`
module as explicit function parameters, since their internals are outside
this repository.  All stateful code (the chunk signer closure, the
signing-data memoization cache) is embedded as explicit state-passing
step functions, and every fallible code path returns `Except`.
-/

namespace A4S

/-- JavaScript strings, modelled as lists of characters. -/
abbrev Str := List Char

/-- Convert a Lean string literal to the `Str` model. -/
def str (s : String) : Str := s.data

instance {ε α : Type} [DecidableEq ε] [DecidableEq α] : DecidableEq (Except ε α) :=
  fun x y =>
    match x, y with
    | .ok a, .ok b =>
      if h : a = b then isTrue (by rw [h])
      else isFalse (fun hc => h (Except.ok.inj hc))
    | .error a, .error b =>
      if h : a = b then isTrue (by rw [h])
      else isFalse (fun hc => h (Except.error.inj hc))
    | .ok _, .error _ => isFalse (fun hc => Except.noConfusion hc)
    | .error _, .ok _ => isFalse (fun hc => Except.noConfusion hc)

/-- The WhiteSpace / LineTerminator character set used by JavaScript
string trimming and the regexp class backslash-s. -/
def jsWhite (c : Char) : Bool :=
  let n := c.toNat
  n == 32 || n == 9 || n == 10 || n == 13 || n == 0xb || n == 0xc ||
  n == 0xa0 || n == 0x1680 || (0x2000 ≤ n && n ≤ 0x200a) || n == 0x2028 ||
  n == 0x2029 || n == 0x202f || n == 0x205f || n == 0x3000 || n == 0xfeff

/-- JavaScript `String.prototype.trimLeft`. -/
def trimLeft (s : Str) : Str := s.dropWhile jsWhite

/-- JavaScript `String.prototype.trim`. -/
def trim (s : Str) : Str :=
  ((s.dropWhile jsWhite).reverse.dropWhile jsWhite).reverse

/-- Lowercase hexadecimal digit characters, as used by
`Buffer.prototype.toString` with encoding hex and by `toString(16)`. -/
def hexDigitChar : Nat → Char
  | 0 => '0' | 1 => '1' | 2 => '2' | 3 => '3' | 4 => '4'
  | 5 => '5' | 6 => '6' | 7 => '7' | 8 => '8' | 9 => '9'
  | 10 => 'a' | 11 => 'b' | 12 => 'c' | 13 => 'd' | 14 => 'e'
  | _ => 'f'

/-- Is `c` a lowercase hexadecimal digit (regexp class 0-9a-f)? -/
def isHexLower (c : Char) : Bool :=
  (48 ≤ c.toNat && c.toNat ≤ 57) || (97 ≤ c.toNat && c.toNat ≤ 102)

/-- Render one byte as two lowercase hexadecimal characters. -/
def hexByte (b : Nat) : Str := [hexDigitChar (b / 16 % 16), hexDigitChar (b % 16)]

/-- `Buffer.prototype.toString` with encoding hex: render a byte list as
lowercase hexadecimal. -/
def hexEncode (bs : List Nat) : Str := (bs.map hexByte).flatten

/-- Numeric value of a lowercase hexadecimal digit character. -/
def hexVal (c : Char) : Nat :=
  if 48 ≤ c.toNat && c.toNat ≤ 57 then c.toNat - 48
  else if 97 ≤ c.toNat && c.toNat ≤ 102 then c.toNat - 87
  else 0

/-- `Buffer.from(s, 'hex')`: decode pairs of hexadecimal digits to bytes. -/
def hexDecode : Str → List Nat
  | a :: b :: rest => (hexVal a * 16 + hexVal b) :: hexDecode rest
  | _ => []

/-- `Number.prototype.toString(16)` for non-negative integers
(auxiliary, structural recursion on a fuel argument). -/
def natToHexCore (fuel : Nat) (n : Nat) : Str :=
  match fuel with
  | 0 => []
  | fuel' + 1 =>
    if n < 16 then [hexDigitChar n]
    else natToHexCore fuel' (n / 16) ++ [hexDigitChar (n % 16)]

/-- `Number.prototype.toString(16)` for non-negative integers:
lowercase hexadecimal, with 0 rendered as the single digit 0. -/
def natToHex (n : Nat) : Str := natToHexCore (n + 1) n

/-- `Number.prototype.toString()` for non-negative integers (auxiliary). -/
def natToDecCore (fuel : Nat) (n : Nat) : Str :=
  match fuel with
  | 0 => []
  | fuel' + 1 =>
    if n < 10 then [hexDigitChar n]
    else natToDecCore fuel' (n / 10) ++ [hexDigitChar (n % 10)]

/-- `Number.prototype.toString()` for non-negative integers: decimal. -/
def natToDec (n : Nat) : Str := natToDecCore (n + 1) n

/-- UTF-8 encoding of one Unicode scalar value, as performed by
`Buffer.from(string)` and by `crypto` hash or hmac `update(string)`. -/
def utf8Bytes (c : Char) : List Nat :=
  let n := c.toNat
  if n < 0x80 then [n]
  else if n < 0x800 then [0xc0 + n / 0x40, 0x80 + n % 0x40]
  else if n < 0x10000 then
    [0xe0 + n / 0x1000, 0x80 + n / 0x40 % 0x40, 0x80 + n % 0x40]
  else
    [0xf0 + n / 0x40000, 0x80 + n / 0x1000 % 0x40,
     0x80 + n / 0x40 % 0x40, 0x80 + n % 0x40]

/-- UTF-8 encoding of a string. -/
def utf8Str (s : Str) : List Nat := (s.map utf8Bytes).flatten

/-- `Array.prototype.join('/')`, used for the credential scope and for
the memoization cache key. -/
def joinSlash : List Str → Str
  | [] => []
  | [x] => x
  | x :: xs => x ++ '/' :: joinSlash xs

/-! ## core.js: key derivation -/

/-- The HMAC-SHA-256 primitive (key, message to digest); its internals live
in node's `crypto` module, outside this repository, so it is a parameter
of every definition that uses it. -/
abbrev HmacFn := List Nat → List Nat → List Nat

/-- The SHA-256 primitive (message to digest); a parameter for the same
reason as `HmacFn`. -/
abbrev ShaFn := List Nat → List Nat

/-- Signing data returned by `getSigningData` (core.js): the derived
binary key and the credential scope string. -/
structure SigningData where
  key : List Nat
  scope : Str
deriving DecidableEq, Repr

/-- `getSigningData` (core.js, lines 355-364): derive the signature key
and credential scope by chained HMAC over date, region, service. -/
def getSigningData (hmac : HmacFn) (dateStamp secretKey regionName serviceName : Str) :
    SigningData :=
  let dateStamp := dateStamp.take 8
  let parts : List Str := [dateStamp, regionName, serviceName, str "aws4_request"]
  let key := parts.foldl (fun k part => hmac k (utf8Str part))
    (utf8Str (str "AWS4" ++ secretKey))
  { key := key, scope := joinSlash parts }

/-- State of the single-entry cache created by
`getSigningData.makeSimpleCache` (core.js, lines 366-377): the stored
key string and value are assigned together, hence one optional pair. -/
abbrev CacheState := Option (Str × SigningData)

/-- One call to the closure returned by `getSigningData.makeSimpleCache`
(core.js, lines 369-376): recompute and store unless the joined key
matches the stored one. -/
def cachedGetSigningData (hmac : HmacFn) (st : CacheState) (a b c d : Str) :
    SigningData × CacheState :=
  let a8 := a.take 8
  let nkey := joinSlash [a8, b, c, d]
  match st with
  | some (k, v) =>
    if k = nkey then (v, some (k, v))
    else
      let nv := getSigningData hmac a8 b c d
      (nv, some (nkey, nv))
  | none =>
    let nv := getSigningData hmac a8 b c d
    (nv, some (nkey, nv))

/-- Run a sequence of sequential calls against the memoized function,
collecting each call's returned signing data. -/
def runCache (hmac : HmacFn) : CacheState → List (Str × Str × Str × Str) →
    List SigningData × CacheState
  | st, [] => ([], st)
  | st, (a, b, c, d) :: calls =>
    let (v, st') := cachedGetSigningData hmac st a b c d
    let (vs, stf) := runCache hmac st' calls
    (v :: vs, stf)

/-- A string containing no forward slash. -/
def noSlash (s : Str) : Bool := s.all (fun c => c ≠ '/')

/-! ### Lemmas about the cache -/

theorem take_take_eight (s : Str) : (s.take 8).take 8 = s.take 8 := by
  simp [List.take_take]

theorem getSigningData_take_eight (hmac : HmacFn) (a b c d : Str) :
    getSigningData hmac (a.take 8) b c d = getSigningData hmac a b c d := by
  simp [getSigningData, take_take_eight]

theorem append_slash_inj {x y u v : Str} (hx : noSlash x) (hy : noSlash y)
    (h : x ++ '/' :: u = y ++ '/' :: v) : x = y ∧ u = v := by
  induction x generalizing y with
  | nil =>
    cases y with
    | nil => simpa using h
    | cons b ys =>
      simp only [List.nil_append, List.cons_append, List.cons.injEq] at h
      rw [noSlash, List.all_cons, ← h.1] at hy
      simp at hy
  | cons a xs ih =>
    cases y with
    | nil =>
      simp only [List.cons_append, List.nil_append, List.cons.injEq] at h
      rw [noSlash, List.all_cons, h.1] at hx
      simp at hx
    | cons b ys =>
      simp only [List.cons_append, List.cons.injEq] at h
      rw [noSlash, List.all_cons, Bool.and_eq_true] at hx hy
      obtain ⟨h1, h2⟩ := ih hx.2 hy.2 h.2
      exact ⟨by rw [h.1, h1], h2⟩

theorem joinSlash_inj4 {a b c d a' b' c' d' : Str}
    (ha : noSlash a) (hb : noSlash b) (hc : noSlash c)
    (ha' : noSlash a') (hb' : noSlash b') (hc' : noSlash c')
    (h : joinSlash [a, b, c, d] = joinSlash [a', b', c', d']) :
    a = a' ∧ b = b' ∧ c = c' ∧ d = d' := by
  simp only [joinSlash] at h
  obtain ⟨h1, h2⟩ := append_slash_inj ha ha' h
  obtain ⟨h3, h4⟩ := append_slash_inj hb hb' h2
  obtain ⟨h5, h6⟩ := append_slash_inj hc hc' h4
  exact ⟨h1, h3, h5, h6⟩

/-- Good cache states: the stored entry was produced by `getSigningData`
on some slash-free argument tuple whose date stamp is already cropped. -/
def CacheGood (hmac : HmacFn) : CacheState → Prop
  | none => True
  | some (k, v) => ∃ a b c d : Str,
      noSlash a ∧ noSlash b ∧ noSlash c ∧ noSlash d ∧
      a.take 8 = a ∧
      k = joinSlash [a, b, c, d] ∧ v = getSigningData hmac a b c d

theorem cachedGetSigningData_good (hmac : HmacFn) (st : CacheState)
    (a b c d : Str) (hst : CacheGood hmac st)
    (ha : noSlash (a.take 8)) (hb : noSlash b) (hc : noSlash c) (hd : noSlash d) :
    (cachedGetSigningData hmac st a b c d).1 = getSigningData hmac a b c d ∧
    CacheGood hmac (cachedGetSigningData hmac st a b c d).2 := by
  have hgood : CacheGood hmac (some (joinSlash [a.take 8, b, c, d],
      getSigningData hmac (a.take 8) b c d)) :=
    ⟨a.take 8, b, c, d, ha, hb, hc, hd, take_take_eight a, rfl, rfl⟩
  match st with
  | none =>
    refine ⟨?_, ?_⟩
    · simp [cachedGetSigningData, getSigningData_take_eight]
    · simpa [cachedGetSigningData] using hgood
  | some (k, v) =>
    obtain ⟨a', b', c', d', ha', hb', hc', hd', hcrop, hk, hv⟩ := hst
    by_cases hkey : k = joinSlash [a.take 8, b, c, d]
    · have hinj := joinSlash_inj4 ha' hb' hc' ha hb hc (hk ▸ hkey)
      refine ⟨?_, ?_⟩
      · simp only [cachedGetSigningData, if_pos hkey]
        rw [hv, hinj.1, hinj.2.1, hinj.2.2.1, hinj.2.2.2,
          getSigningData_take_eight]
      · simp only [cachedGetSigningData, if_pos hkey]
        exact ⟨a', b', c', d', ha', hb', hc', hd', hcrop, hk, hv⟩
    · refine ⟨?_, ?_⟩
      · simp [cachedGetSigningData, if_neg hkey, getSigningData_take_eight]
      · simpa [cachedGetSigningData, if_neg hkey] using hgood

theorem runCache_spec (hmac : HmacFn) (calls : List (Str × Str × Str × Str))
    (st : CacheState) (hst : CacheGood hmac st)
    (h : ∀ t ∈ calls, noSlash (t.1.take 8) ∧ noSlash t.2.1 ∧
      noSlash t.2.2.1 ∧ noSlash t.2.2.2) :
    (runCache hmac st calls).1 =
      calls.map (fun t => getSigningData hmac t.1 t.2.1 t.2.2.1 t.2.2.2) := by
  induction calls generalizing st with
  | nil => simp [runCache]
  | cons t calls ih =>
    obtain ⟨a, b, c, d⟩ := t
    have ht := h (a, b, c, d) (by simp)
    obtain ⟨hv, hgood⟩ := cachedGetSigningData_good hmac st a b c d hst
      ht.1 ht.2.1 ht.2.2.1 ht.2.2.2
    simp only [runCache, List.map_cons]
    rw [ih _ hgood (fun t' ht' => h t' (List.mem_cons_of_mem _ ht'))]
    simp [hv]

/-- A fixed stand-in for the HMAC-SHA-256 primitive, used to evaluate the
embedding on concrete inputs. -/
def dummyHmac : HmacFn := fun _ _ => List.replicate 32 0

/-- A fixed stand-in for the SHA-256 primitive, used to evaluate the
embedding on concrete inputs. -/
def dummySha : ShaFn := fun _ => List.replicate 32 0

/-! ### Claim C9 -/

/-- C9 counterexample: two sequential calls whose distinct argument
tuples join (with slashes) to the same cache key make the memoized
function return a stale entry: the second call's result differs from
what the pure `getSigningData` returns for that call's arguments. -/
theorem C9_counterexample :
    ((runCache dummyHmac none
      [(str "20200101", str "k", str "r/s", str "e"),
       (str "20200101", str "k/r", str "s", str "e")]).1.getD 1
        ⟨[], []⟩).scope ≠
    (getSigningData dummyHmac (str "20200101") (str "k/r") (str "s")
      (str "e")).scope := by
  decide

/-- C9 (amended): for every sequence of sequential calls whose argument
components (the first eight characters of the date stamp, the secret
key, the region and the service) contain no forward slash, the memoized
function produced by `getSigningData.makeSimpleCache` returns, on each
call, exactly what the pure `getSigningData` returns for that call's
arguments. -/
theorem C9_cache_refines_getSigningData (hmac : HmacFn)
    (calls : List (Str × Str × Str × Str))
    (h : ∀ t ∈ calls, noSlash (t.1.take 8) ∧ noSlash t.2.1 ∧
      noSlash t.2.2.1 ∧ noSlash t.2.2.2) :
    (runCache hmac none calls).1 =
      calls.map (fun t => getSigningData hmac t.1 t.2.1 t.2.2.1 t.2.2.2) :=
  runCache_spec hmac calls none trivial h

/-- C9 witness: the amended theorem applied to a concrete two-call
sequence (same tuple twice, exercising the cache hit). -/
theorem C9_witness :
    (runCache dummyHmac none
      [(str "20200101", str "k", str "r", str "e"),
       (str "20200101", str "k", str "r", str "e")]).1 =
      [(str "20200101", str "k", str "r", str "e"),
       (str "20200101", str "k", str "r", str "e")].map
        (fun t => getSigningData dummyHmac t.1 t.2.1 t.2.2.1 t.2.2.2) :=
  C9_cache_refines_getSigningData dummyHmac _ (by decide)

/-! ## http.js: the Authorization header codec -/

/-- Data carried by an `Authorization` header (http.js): algorithm
identifier, credential string, signed-header list and binary signature. -/
structure AuthorizationData where
  algorithm : Str
  credential : Str
  signedHeaders : Str
  signature : List Nat
deriving DecidableEq, Repr

/-- `Array.prototype.join(', ')`, as used by `buildAuthorization`. -/
def joinCommaSpace : List Str → Str
  | [] => []
  | [x] => x
  | x :: xs => x ++ ',' :: ' ' :: joinCommaSpace xs

/-- `buildAuthorization` (http.js, lines 139-147). -/
def buildAuthorization (d : AuthorizationData) : Str :=
  d.algorithm ++ ' ' :: joinCommaSpace
    [str "Credential=" ++ d.credential,
     str "SignedHeaders=" ++ d.signedHeaders,
     str "Signature=" ++ hexEncode d.signature]

/-- The inner `split1` helper of `parseAuthorization` (http.js, lines
159-165): split at the first occurrence of a character, failing when it
does not occur. -/
def splitFirst (tok : Char) (x : Str) : Except Str (Str × Str) :=
  if x.contains tok then
    .ok (x.takeWhile (fun c => c ≠ tok), (x.dropWhile (fun c => c ≠ tok)).tail)
  else .error (str "Invalid authorization header structure")

/-- The regexp check on the Signature field of `parseAuthorization`:
a non-empty, even-length string of lowercase hexadecimal digits. -/
def sigFormatOK (sig : Str) : Bool :=
  sig ≠ [] && sig.length % 2 == 0 && sig.all isHexLower

/-- Lookup in a last-occurrence-wins field map, as produced by the
JavaScript `new Map(entries)` constructor. -/
def lastVal (fieldPairs : List (Str × Str)) (k : Str) : Option Str :=
  (fieldPairs.reverse.find? (fun p => p.1 = k)).map (fun p => p.2)

/-- `parseAuthorization` (http.js, lines 158-182). -/
def parseAuthorization (header : Str) : Except Str AuthorizationData := do
  let parts ← splitFirst ' ' (trimLeft header)
  let rawFields := (parts.2.splitOn ',').map trim
  let fieldPairs ← rawFields.mapM (splitFirst '=')
  match lastVal fieldPairs (str "Signature"), lastVal fieldPairs (str "Credential"),
      lastVal fieldPairs (str "SignedHeaders") with
  | some sig, some cred, some sh =>
    if sigFormatOK sig then
      .ok { algorithm := trim parts.1, credential := cred,
            signedHeaders := sh, signature := hexDecode sig }
    else .error (str "Invalid signature format")
  | _, _, _ => .error (str "Invalid authorization header (missing / extra fields)")

/-! ### Hexadecimal codec lemmas -/

theorem hexVal_hexDigitChar : ∀ k, k < 16 → hexVal (hexDigitChar k) = k := by
  decide

theorem isHexLower_hexDigitChar : ∀ k, k < 16 → isHexLower (hexDigitChar k) = true := by
  decide

theorem hexEncode_length (bs : List Nat) : (hexEncode bs).length = 2 * bs.length := by
  induction bs with
  | nil => rfl
  | cons b bs ih =>
    simp only [hexEncode, List.map_cons, List.flatten_cons, List.length_append,
      hexByte, List.length_cons, List.length_nil] at ih ⊢
    omega

theorem hexEncode_all_hex (bs : List Nat) : ∀ c ∈ hexEncode bs, isHexLower c = true := by
  induction bs with
  | nil => intro c hc; simp [hexEncode] at hc
  | cons b bs ih =>
    intro c hc
    simp only [hexEncode, List.map_cons, List.flatten_cons, List.mem_append] at hc
    rcases hc with hc | hc
    · simp only [hexByte, List.mem_cons, List.not_mem_nil, or_false] at hc
      rcases hc with rfl | rfl
      · exact isHexLower_hexDigitChar _ (Nat.mod_lt _ (by omega))
      · exact isHexLower_hexDigitChar _ (Nat.mod_lt _ (by omega))
    · exact ih c hc

theorem hexEncode_cons (b : Nat) (bs : List Nat) :
    hexEncode (b :: bs) =
      hexDigitChar (b / 16 % 16) :: hexDigitChar (b % 16) :: hexEncode bs := rfl

theorem hexDecode_hexEncode (bs : List Nat) (h : ∀ b ∈ bs, b < 256) :
    hexDecode (hexEncode bs) = bs := by
  induction bs with
  | nil => rfl
  | cons b bs ih =>
    have hb : b < 256 := h b (by simp)
    have h1 : b / 16 % 16 < 16 := Nat.mod_lt _ (by omega)
    have h2 : b % 16 < 16 := Nat.mod_lt _ (by omega)
    rw [hexEncode_cons]
    simp only [hexDecode]
    rw [hexVal_hexDigitChar _ h1, hexVal_hexDigitChar _ h2,
      ih (fun x hx => h x (by simp [hx]))]
    congr 1
    omega

theorem sigFormatOK_hexEncode (bs : List Nat) (hne : bs ≠ []) :
    sigFormatOK (hexEncode bs) = true := by
  have hlen := hexEncode_length bs
  have hhex := hexEncode_all_hex bs
  simp only [sigFormatOK, Bool.and_eq_true, decide_eq_true_eq, beq_iff_eq,
    List.all_eq_true]
  refine ⟨⟨?_, ?_⟩, fun c hc => hhex c hc⟩
  · intro hnil
    rw [hnil] at hlen
    simp at hlen
    rcases bs with _ | _
    · exact hne rfl
    · simp at hlen
  · omega

/-! ### String-splitting lemmas -/

theorem takeWhile_until_tok (tok : Char) (a b : Str) (ha : tok ∉ a) :
    (a ++ tok :: b).takeWhile (fun c => c ≠ tok) = a := by
  induction a with
  | nil =>
    rw [List.nil_append, List.takeWhile_cons_of_neg]
    simp
  | cons x xs ih =>
    have hx : x ≠ tok := fun hcontra => ha (hcontra ▸ List.mem_cons_self x xs)
    have hxs : tok ∉ xs := fun hmem => ha (List.mem_cons_of_mem _ hmem)
    rw [List.cons_append, List.takeWhile_cons_of_pos (by simp [hx]), ih hxs]

theorem dropWhile_until_tok (tok : Char) (a b : Str) (ha : tok ∉ a) :
    (a ++ tok :: b).dropWhile (fun c => c ≠ tok) = tok :: b := by
  induction a with
  | nil =>
    rw [List.nil_append, List.dropWhile_cons_of_neg]
    simp
  | cons x xs ih =>
    have hx : x ≠ tok := fun hcontra => ha (hcontra ▸ List.mem_cons_self x xs)
    have hxs : tok ∉ xs := fun hmem => ha (List.mem_cons_of_mem _ hmem)
    rw [List.cons_append, List.dropWhile_cons_of_pos (by simp [hx]), ih hxs]

theorem splitFirst_append (tok : Char) (a b : Str) (ha : tok ∉ a) :
    splitFirst tok (a ++ tok :: b) = .ok (a, b) := by
  have hcon : (a ++ tok :: b).contains tok = true := by
    simp [List.contains_eq_any_beq, List.any_append]
  simp only [splitFirst, hcon, if_true]
  rw [takeWhile_until_tok tok a b ha, dropWhile_until_tok tok a b ha]
  rfl

theorem trimLeft_eq_self (s : Str) (h : ∀ c, s.head? = some c → jsWhite c = false) :
    trimLeft s = s := by
  cases s with
  | nil => rfl
  | cons a l =>
    have := h a rfl
    simp [trimLeft, List.dropWhile_cons, this]

theorem trim_eq_self (s : Str)
    (h1 : ∀ c, s.head? = some c → jsWhite c = false)
    (h2 : ∀ c, s.getLast? = some c → jsWhite c = false) :
    trim s = s := by
  cases s with
  | nil => rfl
  | cons a l =>
    have ha := h1 a rfl
    simp only [trim, List.dropWhile_cons, ha, Bool.false_eq_true, if_false]
    cases hrev : (a :: l).reverse with
    | nil => simp at hrev
    | cons b m =>
      have hb : (a :: l).getLast? = some b := by
        rw [← List.head?_reverse, hrev]
        rfl
      have := h2 b hb
      rw [List.dropWhile_cons, this]
      simp only [Bool.false_eq_true, if_false]
      rw [← hrev, List.reverse_reverse]

theorem trim_space_cons (s : Str) : trim (' ' :: s) = trim s := by
  simp [trim, List.dropWhile_cons, show jsWhite ' ' = true from by decide]

theorem Except_ok_bind {ε α β : Type} (a : α) (f : α → Except ε β) :
    (Except.ok a >>= f) = f a := rfl

theorem exceptMapM_ok {α β ε : Type} (f : α → Except ε β) (g : α → β) (l : List α)
    (h : ∀ x ∈ l, f x = .ok (g x)) : l.mapM f = .ok (l.map g) := by
  induction l with
  | nil => rfl
  | cons x xs ih =>
    rw [List.mapM_cons, h x (by simp), ih (fun y hy => h y (List.mem_cons_of_mem _ hy))]
    rfl

theorem exceptMapM_unrender {α γ ε : Type} (f : γ → Except ε α) (m : α → γ)
    (l : List α) (h : ∀ x ∈ l, f (m x) = .ok x) : (l.map m).mapM f = .ok l := by
  induction l with
  | nil => rfl
  | cons x xs ih =>
    rw [List.map_cons, List.mapM_cons, h x (by simp),
      ih (fun y hy => h y (List.mem_cons_of_mem _ hy))]
    rfl

theorem splitOn_joinCommaSpace (x : Str) (xs : List Str)
    (h : ∀ r ∈ x :: xs, ',' ∉ r) :
    List.splitOn ',' (joinCommaSpace (x :: xs)) = x :: xs.map (fun s => ' ' :: s) := by
  induction xs generalizing x with
  | nil =>
    apply List.splitOnP_eq_single
    intro c hc
    simp only [beq_iff_eq]
    intro hcomma
    exact h x (by simp) (hcomma ▸ hc)
  | cons y ys ih =>
    have hx : ',' ∉ x := h x (by simp)
    have hrest : ∀ r ∈ y :: ys, ',' ∉ r := fun r hr => h r (List.mem_cons_of_mem _ hr)
    have hstep : joinCommaSpace (x :: y :: ys) =
        x ++ ',' :: (' ' :: joinCommaSpace (y :: ys)) := rfl
    rw [hstep, List.splitOn, List.splitOnP_first _ x
      (fun c hc => by simp only [beq_iff_eq]; intro hcomma; exact hx (hcomma ▸ hc))
      ',' (by simp) _]
    have ihy := ih y hrest
    rw [List.splitOn] at ihy
    rw [List.splitOnP_cons]
    simp only [show ((' ' : Char) == ',') = false by decide, Bool.false_eq_true,
      if_false]
    rw [ihy]
    rfl

/-! ### Well-formedness of rendered headers -/

/-- No leading JavaScript whitespace. -/
def headNotWhite (s : Str) : Prop := ∀ c, s.head? = some c → jsWhite c = false

/-- No trailing JavaScript whitespace. -/
def lastNotWhite (s : Str) : Prop := ∀ c, s.getLast? = some c → jsWhite c = false

theorem headNotWhite_of (s : Str) (a : Char) (h : s.head? = some a)
    (ha : jsWhite a = false) : headNotWhite s := by
  intro c hc
  rw [h] at hc
  cases hc
  exact ha

theorem lastNotWhite_of (s : Str) (a : Char) (h : s.getLast? = some a)
    (ha : jsWhite a = false) : lastNotWhite s := by
  intro c hc
  rw [h] at hc
  cases hc
  exact ha

theorem lastNotWhite_nil : lastNotWhite [] := by
  intro c hc
  cases hc

/-- Decidable form of `headNotWhite`. -/
def headNotWhiteB (s : Str) : Bool :=
  match s.head? with
  | some c => !jsWhite c
  | none => true

/-- Decidable form of `lastNotWhite`. -/
def lastNotWhiteB (s : Str) : Bool :=
  match s.getLast? with
  | some c => !jsWhite c
  | none => true

theorem headNotWhite_of_B {s : Str} (h : headNotWhiteB s = true) : headNotWhite s := by
  intro c hc
  rw [headNotWhiteB, hc] at h
  simpa using h

theorem lastNotWhite_of_B {s : Str} (h : lastNotWhiteB s = true) : lastNotWhite s := by
  intro c hc
  rw [lastNotWhiteB, hc] at h
  simpa using h

/-- `c` does not occur in `s`, decidably. -/
def noCharB (c : Char) (s : Str) : Bool := s.all (fun x => x ≠ c)

theorem not_mem_of_noCharB {c : Char} {s : Str} (h : noCharB c s = true) : c ∉ s := by
  intro hmem
  rw [noCharB, List.all_eq_true] at h
  simpa using h c hmem

theorem jsWhite_false_of_hex (c : Char) (h : isHexLower c = true) : jsWhite c = false := by
  simp only [isHexLower, Bool.or_eq_true, Bool.and_eq_true, decide_eq_true_eq] at h
  simp only [jsWhite, Bool.or_eq_false_iff, Bool.and_eq_false_iff, beq_eq_false_iff_ne,
    ne_eq, decide_eq_false_iff_not, not_le]
  omega

/-- Render an authorization header from an algorithm and an arbitrary
ordered field list, the way `buildAuthorization` renders its three
fields: fields as `name=value`, joined by comma-space, after the
algorithm and a space. -/
def renderAuth (alg : Str) (fields : List (Str × Str)) : Str :=
  alg ++ ' ' :: joinCommaSpace (fields.map (fun p => p.1 ++ '=' :: p.2))

/-- A well-formed rendered field: the name is nonempty, has no comma,
equals sign or boundary whitespace; the value has no comma and no
trailing whitespace. -/
def fieldWF (p : Str × Str) : Prop :=
  p.1 ≠ [] ∧ ',' ∉ p.1 ∧ '=' ∉ p.1 ∧ headNotWhite p.1 ∧ lastNotWhite p.1 ∧
  ',' ∉ p.2 ∧ lastNotWhite p.2

/-- A well-formed algorithm string: nonempty, no space character, no
boundary whitespace. -/
def algWF (alg : Str) : Prop :=
  alg ≠ [] ∧ ' ' ∉ alg ∧ headNotWhite alg ∧ lastNotWhite alg

/-- Decidable form of `fieldWF`. -/
def fieldOK (p : Str × Str) : Bool :=
  decide (p.1 ≠ []) && noCharB ',' p.1 && noCharB '=' p.1 &&
  headNotWhiteB p.1 && lastNotWhiteB p.1 && noCharB ',' p.2 && lastNotWhiteB p.2

theorem fieldWF_of_fieldOK {p : Str × Str} (h : fieldOK p = true) : fieldWF p := by
  simp only [fieldOK, Bool.and_eq_true, decide_eq_true_eq] at h
  obtain ⟨⟨⟨⟨⟨⟨h1, h2⟩, h3⟩, h4⟩, h5⟩, h6⟩, h7⟩ := h
  exact ⟨h1, not_mem_of_noCharB h2, not_mem_of_noCharB h3, headNotWhite_of_B h4,
    lastNotWhite_of_B h5, not_mem_of_noCharB h6, lastNotWhite_of_B h7⟩

/-- Decidable form of `algWF`. -/
def algOK (alg : Str) : Bool :=
  decide (alg ≠ []) && noCharB ' ' alg && headNotWhiteB alg && lastNotWhiteB alg

theorem algWF_of_algOK {alg : Str} (h : algOK alg = true) : algWF alg := by
  simp only [algOK, Bool.and_eq_true, decide_eq_true_eq] at h
  obtain ⟨⟨⟨h1, h2⟩, h3⟩, h4⟩ := h
  exact ⟨h1, not_mem_of_noCharB h2, headNotWhite_of_B h3, lastNotWhite_of_B h4⟩

theorem renderAuth_head (alg : Str) (fields : List (Str × Str)) (halg : algWF alg) :
    trimLeft (renderAuth alg fields) = renderAuth alg fields := by
  apply trimLeft_eq_self
  intro c hc
  obtain ⟨hne, _, hhead, _⟩ := halg
  cases alg with
  | nil => exact absurd rfl hne
  | cons a l =>
    simp only [renderAuth, List.cons_append, List.head?_cons, Option.some.injEq] at hc
    exact hc ▸ hhead a rfl

theorem fieldWF_render_ends (p : Str × Str) (hp : fieldWF p) :
    headNotWhite (p.1 ++ '=' :: p.2) ∧ lastNotWhite (p.1 ++ '=' :: p.2) := by
  obtain ⟨hne, _, _, hhead, _, _, hlast⟩ := hp
  constructor
  · intro c hc
    cases hk : p.1 with
    | nil => exact absurd hk hne
    | cons a l =>
      rw [hk] at hc
      simp only [List.cons_append, List.head?_cons, Option.some.injEq] at hc
      exact hc ▸ (hk ▸ hhead : headNotWhite (a :: l)) a rfl
  · intro c hc
    cases hv : p.2 with
    | nil =>
      rw [hv] at hc
      have : p.1 ++ ['='] = p.1 ++ ['='] := rfl
      rw [show ('=' :: ([] : Str)) = ['='] from rfl, List.getLast?_concat] at hc
      cases hc
      decide
    | cons b m =>
      rw [hv, List.getLast?_append] at hc
      have hbm : ('=' :: b :: m).getLast? = (b :: m).getLast? := by
        rw [List.getLast?_cons_cons]
      rw [hbm] at hc
      cases hlast2 : (b :: m).getLast? with
      | none => exact absurd hlast2 (by simp)
      | some d =>
        rw [hlast2] at hc
        simp only [Option.or_some, Option.some.injEq] at hc
        subst hc
        exact (hv ▸ hlast : lastNotWhite (b :: m)) d hlast2

theorem trim_rendered_first (p : Str × Str) (hp : fieldWF p) :
    trim (p.1 ++ '=' :: p.2) = p.1 ++ '=' :: p.2 := by
  obtain ⟨h1, h2⟩ := fieldWF_render_ends p hp
  exact trim_eq_self _ h1 h2

theorem trim_rendered_rest (p : Str × Str) (hp : fieldWF p) :
    trim (' ' :: (p.1 ++ '=' :: p.2)) = p.1 ++ '=' :: p.2 := by
  rw [trim_space_cons]
  exact trim_rendered_first p hp

/-- The structural part of `parseAuthorization` on a rendered header:
the field pairs come out exactly as rendered, and the result is decided
by last-occurrence lookups of the three required names plus the
signature format check. -/
theorem parseAuthorization_renderAuth (alg : Str) (fields : List (Str × Str))
    (halg : algWF alg) (hne : fields ≠ []) (hwf : ∀ p ∈ fields, fieldWF p) :
    parseAuthorization (renderAuth alg fields) =
      match lastVal fields (str "Signature"), lastVal fields (str "Credential"),
          lastVal fields (str "SignedHeaders") with
      | some sig, some cred, some sh =>
        if sigFormatOK sig then
          .ok { algorithm := alg, credential := cred,
                signedHeaders := sh, signature := hexDecode sig }
        else .error (str "Invalid signature format")
      | _, _, _ =>
        .error (str "Invalid authorization header (missing / extra fields)") := by
  cases hf : fields with
  | nil => exact absurd hf hne
  | cons p ps =>
  subst hf
  obtain ⟨halg1, halg2, halg3, halg4⟩ := halg
  -- Rendered fields, as strings.
  set rend : (Str × Str) → Str := fun q => q.1 ++ '=' :: q.2 with hrend
  -- Step 1: trimLeft is the identity, and the first space splits the
  -- algorithm from the field list.
  have h1 : trimLeft (renderAuth alg (p :: ps)) = renderAuth alg (p :: ps) :=
    renderAuth_head alg (p :: ps) ⟨halg1, halg2, halg3, halg4⟩
  have h2 : splitFirst ' ' (renderAuth alg (p :: ps)) =
      .ok (alg, joinCommaSpace ((p :: ps).map rend)) :=
    splitFirst_append ' ' alg _ halg2
  -- Step 2: splitting on commas recovers the rendered fields.
  have hnocomma : ∀ r ∈ (p :: ps).map rend, ',' ∉ r := by
    intro r hr
    simp only [List.mem_map] at hr
    obtain ⟨q, hq, rfl⟩ := hr
    obtain ⟨_, hk, _, _, _, hv, _⟩ := hwf q hq
    simp only [hrend, List.mem_append, List.mem_cons]
    rintro (h | h | h)
    · exact hk h
    · exact absurd h.symm (by decide)
    · exact hv h
  have h3 : List.splitOn ',' (joinCommaSpace ((p :: ps).map rend)) =
      rend p :: (ps.map rend).map (fun s => ' ' :: s) := by
    rw [List.map_cons] at hnocomma ⊢
    exact splitOn_joinCommaSpace (rend p) (ps.map rend) hnocomma
  -- Step 3: trimming each raw field is the identity.
  have h4 : (rend p :: (ps.map rend).map (fun s => ' ' :: s)).map trim =
      (p :: ps).map rend := by
    simp only [List.map_cons, List.map_map]
    congr 1
    · exact trim_rendered_first p (hwf p (List.mem_cons_self p ps))
    · apply List.map_congr_left
      intro q hq
      exact trim_rendered_rest q (hwf q (List.mem_cons_of_mem p hq))
  -- Step 4: splitting each field at the first equals sign recovers the pair.
  have h5 : ((p :: ps).map rend).mapM (splitFirst '=') = .ok (p :: ps) := by
    apply exceptMapM_unrender
    intro q hq
    obtain ⟨_, _, hkeq, _, _, _, _⟩ := hwf q hq
    exact splitFirst_append '=' q.1 q.2 hkeq
  -- Assemble.
  simp only [parseAuthorization, h1, h2, Except_ok_bind, h3, h4, h5,
    trim_eq_self alg halg3 halg4]

/-! ### Claim C4 -/

/-- C4 counterexample: the record whose credential is the two-character
string a-space satisfies all the claimed well-formedness conditions
(algorithm has no spaces, credential and signedHeaders have no comma or
equals sign, signature is a non-empty buffer), yet parsing the built
header trims the credential, so the round trip does not return the
original record. -/
theorem C4_counterexample :
    parseAuthorization (buildAuthorization
      { algorithm := str "A", credential := str "a ",
        signedHeaders := str "h", signature := [0] }) ≠
    .ok { algorithm := str "A", credential := str "a ",
          signedHeaders := str "h", signature := [0] } := by
  decide

/-- C4 (amended): for every authorization record whose algorithm is
nonempty, contains no space and neither starts nor ends with whitespace,
whose credential and signedHeaders contain no comma or equals sign and
do not end with whitespace, and whose signature is a non-empty byte
buffer, `parseAuthorization` inverts `buildAuthorization` exactly. -/
theorem C4_parse_build_roundtrip (d : AuthorizationData)
    (halg : algWF d.algorithm)
    (hcred : ',' ∉ d.credential ∧ '=' ∉ d.credential ∧ lastNotWhite d.credential)
    (hsh : ',' ∉ d.signedHeaders ∧ '=' ∉ d.signedHeaders ∧ lastNotWhite d.signedHeaders)
    (hsig : d.signature ≠ [] ∧ ∀ b ∈ d.signature, b < 256) :
    parseAuthorization (buildAuthorization d) = .ok d := by
  obtain ⟨alg, cred, sh, sig⟩ := d
  have hexlast : lastNotWhite (hexEncode sig) := fun c hc =>
    jsWhite_false_of_hex c (hexEncode_all_hex sig c (List.mem_of_mem_getLast? hc))
  have hexnocomma : ',' ∉ hexEncode sig := fun hmem =>
    absurd (hexEncode_all_hex sig ',' hmem) (by decide)
  have hwfall : ∀ p ∈ [(str "Credential", cred), (str "SignedHeaders", sh),
      (str "Signature", hexEncode sig)], fieldWF p := by
    intro p hp
    simp only [List.mem_cons, List.not_mem_nil, or_false] at hp
    rcases hp with rfl | rfl | rfl
    · exact ⟨(by decide : str "Credential" ≠ []),
        @not_mem_of_noCharB ',' (str "Credential") (by decide),
        @not_mem_of_noCharB '=' (str "Credential") (by decide),
        headNotWhite_of _ 'C' rfl (by decide),
        lastNotWhite_of _ 'l' rfl (by decide), hcred.1, hcred.2.2⟩
    · exact ⟨(by decide : str "SignedHeaders" ≠ []),
        @not_mem_of_noCharB ',' (str "SignedHeaders") (by decide),
        @not_mem_of_noCharB '=' (str "SignedHeaders") (by decide),
        headNotWhite_of _ 'S' rfl (by decide),
        lastNotWhite_of _ 's' rfl (by decide), hsh.1, hsh.2.2⟩
    · exact ⟨(by decide : str "Signature" ≠ []),
        @not_mem_of_noCharB ',' (str "Signature") (by decide),
        @not_mem_of_noCharB '=' (str "Signature") (by decide),
        headNotWhite_of _ 'S' rfl (by decide),
        lastNotWhite_of _ 'e' rfl (by decide), hexnocomma, hexlast⟩
  have hbuild : buildAuthorization ⟨alg, cred, sh, sig⟩ =
      renderAuth alg [(str "Credential", cred), (str "SignedHeaders", sh),
        (str "Signature", hexEncode sig)] := rfl
  rw [hbuild, parseAuthorization_renderAuth alg _ halg (by simp) hwfall]
  have hS : lastVal [(str "Credential", cred), (str "SignedHeaders", sh),
      (str "Signature", hexEncode sig)] (str "Signature") = some (hexEncode sig) := rfl
  have hC : lastVal [(str "Credential", cred), (str "SignedHeaders", sh),
      (str "Signature", hexEncode sig)] (str "Credential") = some cred := rfl
  have hH : lastVal [(str "Credential", cred), (str "SignedHeaders", sh),
      (str "Signature", hexEncode sig)] (str "SignedHeaders") = some sh := rfl
  simp only [hS, hC, hH, sigFormatOK_hexEncode sig hsig.1, if_true]
  rw [hexDecode_hexEncode sig hsig.2]

/-- C4 witness: the amended round trip evaluated at a concrete record. -/
theorem C4_witness :
    parseAuthorization (buildAuthorization
      { algorithm := str "AWS4-HMAC-SHA256",
        credential := str "AKID/20200101/us-east-1/s3/aws4_request",
        signedHeaders := str "host;x-amz-date",
        signature := [18, 52] }) =
    .ok { algorithm := str "AWS4-HMAC-SHA256",
          credential := str "AKID/20200101/us-east-1/s3/aws4_request",
          signedHeaders := str "host;x-amz-date",
          signature := [18, 52] } := by
  apply C4_parse_build_roundtrip
  · exact algWF_of_algOK (by decide)
  · exact ⟨not_mem_of_noCharB (by decide), not_mem_of_noCharB (by decide),
      lastNotWhite_of_B (by decide)⟩
  · exact ⟨not_mem_of_noCharB (by decide), not_mem_of_noCharB (by decide),
      lastNotWhite_of_B (by decide)⟩
  · exact ⟨by decide, by decide⟩

/-! ### Claim C5 -/

/-- C5 counterexample: a header with a duplicated Credential field and
an extra field parses successfully (the last duplicate wins and extra
fields are ignored), contradicting the claim that such inputs throw. -/
theorem C5_counterexample :
    parseAuthorization
      (str "A Credential=c, SignedHeaders=h, Signature=00, Credential=d, Extra=z") =
    .ok { algorithm := str "A", credential := str "d",
          signedHeaders := str "h", signature := [0] } := by
  decide

/-- C5 (amended): on a well-formed rendered header, `parseAuthorization`
succeeds exactly when the comma-separated field list carries the three
names Credential, SignedHeaders and Signature each at least once — in
any order, with duplicates resolved last-occurrence-wins and extra
fields ignored — and the last Signature value is a non-empty even-length
lowercase-hex string; it throws (a structural-parse error) when a
required field is missing or the signature is malformed. -/
theorem C5_parse_characterization (alg : Str) (fields : List (Str × Str))
    (halg : algWF alg) (hne : fields ≠ []) (hwf : ∀ p ∈ fields, fieldWF p) :
    parseAuthorization (renderAuth alg fields) =
      match lastVal fields (str "Signature"), lastVal fields (str "Credential"),
          lastVal fields (str "SignedHeaders") with
      | some sig, some cred, some sh =>
        if sigFormatOK sig then
          .ok { algorithm := alg, credential := cred,
                signedHeaders := sh, signature := hexDecode sig }
        else .error (str "Invalid signature format")
      | _, _, _ =>
        .error (str "Invalid authorization header (missing / extra fields)") :=
  parseAuthorization_renderAuth alg fields halg hne hwf

/-- C5 witness: the characterization evaluated on a concrete header with
a duplicate field and an extra field. -/
theorem C5_witness :
    parseAuthorization (renderAuth (str "A")
      [(str "Credential", str "c"), (str "SignedHeaders", str "h"),
       (str "Signature", str "00"), (str "Credential", str "d"),
       (str "Extra", str "z")]) =
      match lastVal [(str "Credential", str "c"), (str "SignedHeaders", str "h"),
          (str "Signature", str "00"), (str "Credential", str "d"),
          (str "Extra", str "z")] (str "Signature"),
        lastVal [(str "Credential", str "c"), (str "SignedHeaders", str "h"),
          (str "Signature", str "00"), (str "Credential", str "d"),
          (str "Extra", str "z")] (str "Credential"),
        lastVal [(str "Credential", str "c"), (str "SignedHeaders", str "h"),
          (str "Signature", str "00"), (str "Credential", str "d"),
          (str "Extra", str "z")] (str "SignedHeaders") with
      | some sig, some cred, some sh =>
        if sigFormatOK sig then
          .ok { algorithm := str "A", credential := cred,
                signedHeaders := sh, signature := hexDecode sig }
        else .error (str "Invalid signature format")
      | _, _, _ =>
        .error (str "Invalid authorization header (missing / extra fields)") := by
  apply C5_parse_characterization
  · exact algWF_of_algOK (by decide)
  · decide
  · intro p hp
    fin_cases hp <;> exact fieldWF_of_fieldOK (by decide)

/-! ## http.js: query canonicalization -/

/-- The character-keep test of `escape` (http.js, lines 18-23): unreserved
bytes (letters via lowercasing bit-or 0x20, digits, hyphen, dot,
underscore, tilde) stay, everything else is percent-encoded. -/
def unreservedByte (x : Nat) : Bool :=
  (0x61 ≤ (x ||| 0x20) && (x ||| 0x20) ≤ 0x7a) || (0x30 ≤ x && x ≤ 0x39) ||
  x == 0x2d || x == 0x2e || x == 0x5f || x == 0x7e

/-- Uppercase hexadecimal digits, the `digits` table of `escape`. -/
def hexDigitUpper : Nat → Char
  | 0 => '0' | 1 => '1' | 2 => '2' | 3 => '3' | 4 => '4'
  | 5 => '5' | 6 => '6' | 7 => '7' | 8 => '8' | 9 => '9'
  | 10 => 'A' | 11 => 'B' | 12 => 'C' | 13 => 'D' | 14 => 'E'
  | _ => 'F'

/-- `escape` (http.js, lines 18-23): map the UTF-8 bytes of the string,
keeping unreserved bytes and rendering the rest as uppercase
percent-escapes. -/
def escape (s : Str) : Str :=
  ((utf8Str s).map (fun x =>
    if unreservedByte x then [Char.ofNat x]
    else ['%', hexDigitUpper (x / 16), hexDigitUpper (x % 16)])).flatten

/-- UTF-16 code units of one character. -/
def utf16Units (c : Char) : List Nat :=
  let n := c.toNat
  if n < 0x10000 then [n]
  else [0xd800 + (n - 0x10000) / 0x400, 0xdc00 + (n - 0x10000) % 0x400]

/-- UTF-16 code units of a string. -/
def utf16Str (s : Str) : List Nat := (s.map utf16Units).flatten

/-- Lexicographic comparison of code-unit sequences. -/
def unitsLe : List Nat → List Nat → Bool
  | [], _ => true
  | _ :: _, [] => false
  | a :: as, b :: bs => a < b || (a == b && unitsLe as bs)

/-- The default JavaScript string comparison: lexicographic by UTF-16
code unit. -/
def utf16Le (a b : Str) : Bool := unitsLe (utf16Str a) (utf16Str b)

/-- Insertion into a sorted list (auxiliary for sorting). -/
def insertSorted (le : α → α → Bool) (a : α) : List α → List α
  | [] => [a]
  | b :: bs => if le a b then a :: b :: bs else b :: insertSorted le a bs

/-- `Array.prototype.sort`, modelled as insertion sort by the given
comparison. -/
def sortBy (le : α → α → Bool) : List α → List α
  | [] => []
  | a :: as => insertSorted le a (sortBy le as)

/-- `Array.prototype.sort()` on strings: sort by UTF-16 code units. -/
def jsSortStrings (l : List Str) : List Str := sortBy utf16Le l

/-- Auxiliary for `jsSetDedup`: keep elements not seen yet. -/
def dedupFirst [DecidableEq α] : List α → List α → List α
  | [], _ => []
  | a :: as, seen =>
    if a ∈ seen then dedupFirst as seen else a :: dedupFirst as (a :: seen)

/-- `Array.from(new Set(l))`: deduplicate keeping first occurrences in
insertion order. -/
def jsSetDedup [DecidableEq α] (l : List α) : List α := dedupFirst l []

/-- `URLSearchParams` contents: ordered multi-valued key-value pairs. -/
abbrev QueryParams := List (Str × Str)

/-- `URLSearchParams.getAll`: all values of a key, in insertion order. -/
def uspGetAll (q : QueryParams) (k : Str) : List Str :=
  (q.filter (fun p => p.1 = k)).map (fun p => p.2)

/-- `Array.prototype.join('&')`. -/
def joinAmp : List Str → Str
  | [] => []
  | [x] => x
  | x :: xs => x ++ '&' :: joinAmp xs

/-- The parts list accumulated by the loop of `getCanonicalQuery`
(http.js, lines 56-71): iterate over the sorted deduplicated keys,
skip (continue past) empty keys, and render each of the key's sorted
values as escapedKey=escapedValue. -/
def canonicalQueryParts (q : QueryParams) : List Str :=
  ((jsSortStrings (jsSetDedup (q.map (fun p => p.1)))).map (fun key =>
    if key = [] then []
    else (jsSortStrings (uspGetAll q key)).map
      (fun v => escape key ++ '=' :: escape v))).flatten

/-- `getCanonicalQuery` (http.js, lines 56-72). -/
def getCanonicalQuery (q : QueryParams) : Str := joinAmp (canonicalQueryParts q)

/-! ### Sorting and deduplication lemmas -/

theorem mem_insertSorted (le : α → α → Bool) (a x : α) (s : List α) :
    x ∈ insertSorted le a s ↔ x = a ∨ x ∈ s := by
  induction s with
  | nil => simp [insertSorted]
  | cons b bs ih =>
    by_cases h : le a b = true
    · simp [insertSorted, h]
    · simp only [insertSorted, h, Bool.false_eq_true, if_false, List.mem_cons, ih]
      tauto

theorem mem_sortBy (le : α → α → Bool) (x : α) (l : List α) :
    x ∈ sortBy le l ↔ x ∈ l := by
  induction l with
  | nil => simp [sortBy]
  | cons a as ih => simp [sortBy, mem_insertSorted, ih]

theorem unitsLe_total : ∀ a b : List Nat, unitsLe a b = true ∨ unitsLe b a = true := by
  intro a
  induction a with
  | nil => intro b; left; rfl
  | cons x xs ih =>
    intro b
    cases b with
    | nil => right; rfl
    | cons y ys =>
      simp only [unitsLe, Bool.or_eq_true, Bool.and_eq_true, decide_eq_true_eq,
        beq_iff_eq]
      rcases Nat.lt_trichotomy x y with h | h | h
      · left; left; exact h
      · subst h
        rcases ih ys with h2 | h2
        · left; right; exact ⟨rfl, h2⟩
        · right; right; exact ⟨rfl, h2⟩
      · right; left; exact h

theorem unitsLe_trans : ∀ a b c : List Nat,
    unitsLe a b = true → unitsLe b c = true → unitsLe a c = true := by
  intro a
  induction a with
  | nil => intro b c _ _; rfl
  | cons x xs ih =>
    intro b c hab hbc
    cases b with
    | nil => exact absurd hab (by simp [unitsLe])
    | cons y ys =>
      cases c with
      | nil => exact absurd hbc (by simp [unitsLe])
      | cons z zs =>
        simp only [unitsLe, Bool.or_eq_true, Bool.and_eq_true,
          decide_eq_true_eq, beq_iff_eq] at hab hbc ⊢
        rcases hab with h1 | ⟨rfl, h1⟩
        · rcases hbc with h2 | ⟨rfl, h2⟩
          · left; omega
          · left; exact h1
        · rcases hbc with h2 | ⟨rfl, h2⟩
          · left; exact h2
          · right; exact ⟨rfl, ih ys zs h1 h2⟩

theorem utf16Le_total (a b : Str) : utf16Le a b = true ∨ utf16Le b a = true :=
  unitsLe_total _ _

theorem utf16Le_trans (a b c : Str) (h1 : utf16Le a b = true) (h2 : utf16Le b c = true) :
    utf16Le a c = true :=
  unitsLe_trans _ _ _ h1 h2

/-- Sortedness with respect to a boolean comparison. -/
def SortedB (le : α → α → Bool) (l : List α) : Prop :=
  List.Pairwise (fun a b => le a b = true) l

theorem insertSorted_front (le : α → α → Bool) (a : α) (t : List α)
    (h : ∀ x ∈ t, le a x = true) : insertSorted le a t = a :: t := by
  cases t with
  | nil => rfl
  | cons b bs => simp [insertSorted, h b (by simp)]

theorem insertSorted_sorted (le : α → α → Bool)
    (htot : ∀ a b, le a b = true ∨ le b a = true)
    (htrans : ∀ a b c, le a b = true → le b c = true → le a c = true)
    (a : α) (s : List α) (hs : SortedB le s) : SortedB le (insertSorted le a s) := by
  induction s with
  | nil => simp [insertSorted, SortedB]
  | cons b bs ih =>
    rw [SortedB, List.pairwise_cons] at hs
    obtain ⟨hb, hbs⟩ := hs
    by_cases hle : le a b = true
    · rw [insertSorted, if_pos hle, SortedB, List.pairwise_cons]
      refine ⟨?_, List.pairwise_cons.mpr ⟨hb, hbs⟩⟩
      intro x hx
      rcases List.mem_cons.mp hx with rfl | hx
      · exact hle
      · exact htrans a b x hle (hb x hx)
    · rw [insertSorted, if_neg hle, SortedB, List.pairwise_cons]
      refine ⟨?_, ih hbs⟩
      intro x hx
      rcases (mem_insertSorted le a x bs).mp hx with rfl | hx
      · rcases htot x b with h | h
        · exact absurd h hle
        · exact h
      · exact hb x hx

theorem sortBy_sorted (le : α → α → Bool)
    (htot : ∀ a b, le a b = true ∨ le b a = true)
    (htrans : ∀ a b c, le a b = true → le b c = true → le a c = true)
    (l : List α) : SortedB le (sortBy le l) := by
  induction l with
  | nil => simp [sortBy, SortedB]
  | cons a as ih => exact insertSorted_sorted le htot htrans a _ ih

theorem filter_insertSorted (p : α → Bool) (le : α → α → Bool)
    (htrans : ∀ a b c, le a b = true → le b c = true → le a c = true)
    (a : α) (s : List α) (hs : SortedB le s) :
    (insertSorted le a s).filter p =
      if p a then insertSorted le a (s.filter p) else s.filter p := by
  induction s with
  | nil =>
    by_cases h : p a = true <;> simp [insertSorted, List.filter, h]
  | cons b bs ih =>
    rw [SortedB, List.pairwise_cons] at hs
    obtain ⟨hb, hbs⟩ := hs
    by_cases hle : le a b = true
    · have hfront : insertSorted le a (List.filter p (b :: bs)) =
          a :: List.filter p (b :: bs) := by
        apply insertSorted_front
        intro x hx
        have hx' := List.mem_of_mem_filter hx
        rcases List.mem_cons.mp hx' with rfl | hx'
        · exact hle
        · exact htrans a b x hle (hb x hx')
      by_cases hpa : p a = true <;> by_cases hpb : p b = true <;>
        simp_all [insertSorted, List.filter_cons, hle, hpa, hpb]
    · have ih' := ih hbs
      by_cases hpa : p a = true <;> by_cases hpb : p b = true <;>
        simp_all [insertSorted, List.filter_cons, hle, hpa, hpb]

theorem filter_sortBy (p : α → Bool) (le : α → α → Bool)
    (htot : ∀ a b, le a b = true ∨ le b a = true)
    (htrans : ∀ a b c, le a b = true → le b c = true → le a c = true)
    (l : List α) : (sortBy le l).filter p = sortBy le (l.filter p) := by
  induction l with
  | nil => rfl
  | cons a as ih =>
    have hsorted := sortBy_sorted le htot htrans as
    by_cases h : p a = true <;>
      simp [sortBy, List.filter_cons, h, filter_insertSorted p le htrans a _ hsorted, ih]

theorem mem_dedupFirst [DecidableEq α] (x : α) (l seen : List α) :
    x ∈ dedupFirst l seen ↔ x ∈ l ∧ x ∉ seen := by
  induction l generalizing seen with
  | nil => simp [dedupFirst]
  | cons a as ih =>
    by_cases h : a ∈ seen
    · rw [dedupFirst, if_pos h, ih]
      constructor
      · rintro ⟨h1, h2⟩
        exact ⟨List.mem_cons_of_mem _ h1, h2⟩
      · rintro ⟨h1, h2⟩
        rcases List.mem_cons.mp h1 with rfl | h1
        · exact absurd h h2
        · exact ⟨h1, h2⟩
    · rw [dedupFirst, if_neg h]
      by_cases hxa : x = a
      · subst hxa
        simp [h]
      · simp only [List.mem_cons, hxa, false_or, ih]

theorem mem_jsSetDedup [DecidableEq α] (x : α) (l : List α) :
    x ∈ jsSetDedup l ↔ x ∈ l := by
  rw [jsSetDedup, mem_dedupFirst]
  simp

theorem flatten_skip_empty {β : Type} (keys : List Str) (f : Str → List β) :
    ((keys.map (fun key => if key = [] then [] else f key)).flatten) =
      ((keys.filter (fun key => key ≠ [])).map f).flatten := by
  induction keys with
  | nil => rfl
  | cons k ks ih =>
    by_cases h : k = []
    · simp [h, List.filter_cons, ih]
    · simp [h, List.filter_cons, ih]

/-! ### Claim C7 -/

/-- C7: query canonicalization drops exactly the empty-string keys and
emits every non-empty key.  First conjunct: the emitted parts are the
non-empty deduplicated keys, sorted by UTF-16 code unit (filtering
before or after sorting is immaterial), each with its independently
sorted values, rendered as escapedKey=escapedValue and joined by
ampersands.  Second conjunct: every pair of the query whose key is
non-empty contributes its rendering to the parts, even when an
empty-string key occurs anywhere in the query.  Third conjunct: the
concrete query with an empty key followed by non-empty keys b and a
still emits all non-empty keys, in sorted order. -/
theorem C7_canonical_query_drops_only_empty_keys (q : QueryParams) :
    (getCanonicalQuery q = joinAmp
      (((jsSortStrings ((jsSetDedup (q.map (fun p => p.1))).filter
          (fun key => key ≠ []))).map (fun key =>
        (jsSortStrings (uspGetAll q key)).map
          (fun v => escape key ++ '=' :: escape v))).flatten)) ∧
    (∀ p ∈ q, p.1 ≠ [] →
      (escape p.1 ++ '=' :: escape p.2) ∈ canonicalQueryParts q) ∧
    getCanonicalQuery [([], str "x"), (str "b", str "1"), (str "a", str "2")] =
      str "a=2&b=1" := by
  refine ⟨?_, ?_, by decide⟩
  · rw [getCanonicalQuery, canonicalQueryParts, flatten_skip_empty]
    simp only [jsSortStrings]
    rw [filter_sortBy _ utf16Le utf16Le_total utf16Le_trans]
  · intro p hp hne
    rw [canonicalQueryParts, List.mem_flatten]
    refine ⟨if p.1 = [] then [] else (jsSortStrings (uspGetAll q p.1)).map
      (fun v => escape p.1 ++ '=' :: escape v), ?_, ?_⟩
    · apply List.mem_map_of_mem
      rw [jsSortStrings, mem_sortBy, mem_jsSetDedup]
      exact List.mem_map_of_mem _ hp
    · rw [if_neg hne]
      have hval : p.2 ∈ uspGetAll q p.1 := by
        rw [uspGetAll]
        exact List.mem_map_of_mem _ (List.mem_filter.mpr ⟨hp, by simp⟩)
      rw [show escape p.1 ++ '=' :: escape p.2 =
        (fun v => escape p.1 ++ '=' :: escape v) p.2 from rfl]
      apply List.mem_map_of_mem
      rw [jsSortStrings, mem_sortBy]
      exact hval


/-! ## core.js: digest signing -/

/-- `Array.prototype.join` with a newline separator. -/
def joinNL : List Str → Str
  | [] => []
  | [x] => x
  | x :: xs => x ++ '\n' :: joinNL xs

/-- `signString` (core.js, line 395): HMAC the UTF-8 bytes of a string
with the given binary key. -/
def signString (hmac : HmacFn) (key : List Nat) (sts : Str) : List Nat :=
  hmac key (utf8Str sts)

/-- `MAIN_ALGORITHM` (core.js, line 397). -/
def MAIN_ALGORITHM : Str := str "AWS4-HMAC-SHA256"

/-- `signDigest` (core.js, line 408): sign the standard
algorithm-timestamp-scope-digest payload string. -/
def signDigest (hmac : HmacFn) (algorithm payloadDigest timestamp : Str)
    (signing : SigningData) : List Nat :=
  signString hmac signing.key
    (joinNL [algorithm, timestamp, signing.scope, payloadDigest])

/-! ## s3_chunked.js: chunked payload signing -/

/-- `PAYLOAD_STREAMING` (s3_chunked.js, line 18). -/
def PAYLOAD_STREAMING : Str := str "STREAMING-AWS4-HMAC-SHA256-PAYLOAD"

/-- `CHUNK_MIN` (s3_chunked.js, line 20): minimum chunk length, 8 KiB. -/
def CHUNK_MIN : Nat := 8 * 1024

/-- `ALGORITHM_STREAMING` (s3_chunked.js, line 22). -/
def ALGORITHM_STREAMING : Str := str "AWS4-HMAC-SHA256-PAYLOAD"

/-- The CRLF framing separator. -/
def CRLF : Str := ['\r', '\n']

/-- `EMPTY_HASH`: hex digest of the empty input. -/
def EMPTY_HASH (sha : ShaFn) : Str := hexEncode (sha [])

/-- A request body (http.js `SignedRequest.body`): a byte buffer, a
string, or a precomputed-hash descriptor. -/
inductive Body where
  | bytes (data : List Nat)
  | text (s : Str)
  | hashed (hash : Str)
deriving DecidableEq, Repr

/-- `hashBody` (http.js, lines 101-107): empty or missing bodies give the
empty hash, a precomputed hash is used verbatim, otherwise the body's
bytes are hashed. -/
def hashBody (sha : ShaFn) : Option Body → Str
  | none => EMPTY_HASH sha
  | some (.text []) => EMPTY_HASH sha
  | some (.bytes d) => hexEncode (sha d)
  | some (.text s) => hexEncode (sha (utf8Str s))
  | some (.hashed h) => h

/-- A chunk passed to the chunk signer (s3_chunked.d.ts `ChunkSigner`):
a raw byte buffer or a hash-plus-length descriptor. -/
inductive Chunk where
  | bytes (data : List Nat)
  | desc (hash : Str) (length : Nat)
deriving DecidableEq, Repr

/-- The supplied length of a possibly missing chunk. -/
def chunkLen : Option Chunk → Nat
  | none => 0
  | some (.bytes d) => d.length
  | some (.desc _ l) => l

/-- View a chunk as a body for hashing. -/
def chunkAsBody : Chunk → Body
  | .bytes d => .bytes d
  | .desc h _ => .hashed h

/-- `calculateChunks` (s3_chunked.js, lines 27-36): the number of full
chunks and the length of the short final chunk.  (Lengths are `Nat`
here, so the source's integrality and non-negativity checks cannot
fail; the minimum-chunk-length check remains.) -/
def calculateChunks (bodyLength chunkLength : Nat) : Except Str (Nat × Nat) :=
  if chunkLength < CHUNK_MIN then .error (str "Invalid chunk length")
  else
    let chunks := bodyLength / chunkLength
    .ok (chunks, bodyLength - chunks * chunkLength)

/-- `signS3Chunk` (s3_chunked.js, lines 56-59): chain the previous
signature with the empty hash and the chunk's hash, and sign with the
streaming algorithm identifier. -/
def signS3Chunk (hmac : HmacFn) (sha : ShaFn) (lastSignature : Str)
    (signing : SigningData) (timestamp : Str) (chunk : Option Chunk) : Str :=
  let digest := joinNL [lastSignature, EMPTY_HASH sha,
    hashBody sha (chunk.map chunkAsBody)]
  hexEncode (signDigest hmac ALGORITHM_STREAMING digest timestamp signing)

/-- Parameters captured by the `chunkSigner` closure of
`signS3ChunkedRequest`: the declared body length, the fixed chunk
length, and the signing data and timestamp. -/
structure ChunkCtx where
  bodyLength : Nat
  chunkLength : Nat
  signing : SigningData
  timestamp : Str
deriving Repr

/-- The chunk count computed by `calculateChunks`. -/
def chunksOf (ctx : ChunkCtx) : Nat := ctx.bodyLength / ctx.chunkLength

/-- The short-final-chunk length computed by `calculateChunks`. -/
def lastLengthOf (ctx : ChunkCtx) : Nat :=
  ctx.bodyLength - chunksOf ctx * ctx.chunkLength

/-- `chunkHeader` (s3_chunked.js, line 94). -/
def chunkHeaderOf (ctx : ChunkCtx) : Str :=
  natToHex ctx.chunkLength ++ str ";chunk-signature="

/-- `lastHeader` (s3_chunked.js, line 95). -/
def lastHeaderOf (ctx : ChunkCtx) : Str :=
  natToHex (lastLengthOf ctx) ++ str ";chunk-signature="

/-- `finalHeader` (s3_chunked.js, line 96). -/
def finalHeader : Str := str "0;chunk-signature="

/-- `totalLength` (s3_chunked.js, lines 97-98): body length plus framing
overhead of every full chunk, the short final chunk when present, and
the terminal marker. -/
def chunkedTotalLength (bodyLength chunkLength : Nat) : Nat :=
  let chunks := bodyLength / chunkLength
  let lastLength := bodyLength - chunks * chunkLength
  let chunkHeader := natToHex chunkLength ++ str ";chunk-signature="
  let lastHeader := natToHex lastLength ++ str ";chunk-signature="
  bodyLength + (chunkHeader.length + 64 + 4) * chunks
    + (if lastLength ≠ 0 then lastHeader.length + 64 + 4 else 0)
    + (finalHeader.length + 64 + 4)

/-- Mutable state of the `chunkSigner` closure (s3_chunked.js, lines
121-123): the chained signature, cumulative signed byte count, and
completion flag. -/
structure ChunkState where
  signature : Str
  dataCount : Nat
  done : Bool
deriving DecidableEq, Repr

/-- The closure state right after `signS3ChunkedRequest` returns. -/
def initChunkState (seed : Str) : ChunkState := ⟨seed, 0, false⟩

/-- One call of `chunkSigner` (s3_chunked.js, lines 124-141), as a step
function: the emitted framing string or the thrown error, together with
the closure state after the call.  All mutations happen after the two
throw sites, so a throwing call returns the state unchanged. -/
def chunkSignerCall (hmac : HmacFn) (sha : ShaFn) (ctx : ChunkCtx)
    (st : ChunkState) (chunk : Option Chunk) : Except Str Str × ChunkState :=
  if st.done then
    (.error (str "Payload is complete, no more calls are needed"), st)
  else
    let lh : Nat × Str :=
      if ctx.bodyLength - st.dataCount < ctx.chunkLength then
        if st.dataCount ≠ ctx.bodyLength then (lastLengthOf ctx, lastHeaderOf ctx)
        else (0, finalHeader)
      else (ctx.chunkLength, chunkHeaderOf ctx)
    if chunkLen chunk ≠ lh.1 then
      (.error (str "Unexpected chunk size"), st)
    else
      let signature := signS3Chunk hmac sha st.signature ctx.signing ctx.timestamp chunk
      let dataCount := st.dataCount + lh.1
      ((.ok ((if dataCount == lh.1 then [] else CRLF) ++ lh.2 ++ signature ++
        CRLF ++ (if lh.1 ≠ 0 then [] else CRLF))),
       { signature := signature, dataCount := dataCount, done := lh.1 == 0 })

/-- Drive the chunk signer through a sequence of calls, collecting every
call's result (a throwing call does not stop the sequence). -/
def runChunkSigner (hmac : HmacFn) (sha : ShaFn) (ctx : ChunkCtx) :
    ChunkState → List (Option Chunk) → List (Except Str Str) × ChunkState
  | st, [] => ([], st)
  | st, c :: cs =>
    let r := chunkSignerCall hmac sha ctx st c
    let rest := runChunkSigner hmac sha ctx r.2 cs
    (r.1 :: rest.1, rest.2)

/-- Drive the chunk signer through a sequence of calls, stopping with
`none` at the first thrown error. -/
def runChunkSignerOk (hmac : HmacFn) (sha : ShaFn) (ctx : ChunkCtx) :
    ChunkState → List (Option Chunk) → Option (List Str × ChunkState)
  | st, [] => some ([], st)
  | st, c :: cs =>
    match chunkSignerCall hmac sha ctx st c with
    | (.ok out, st') =>
      match runChunkSignerOk hmac sha ctx st' cs with
      | some (outs, fin) => some (out :: outs, fin)
      | none => none
    | (.error _, _) => none

/-- The expected length of each call, as the spec phrases the call
contract: the fixed chunk length while at least a full chunk remains,
else the short final length when data remains, else zero. -/
def expectedLen (ctx : ChunkCtx) (st : ChunkState) : Nat :=
  if ctx.chunkLength ≤ ctx.bodyLength - st.dataCount then ctx.chunkLength
  else if st.dataCount ≠ ctx.bodyLength then lastLengthOf ctx
  else 0

/-- The frame header the signer uses at a given state. -/
def headerAt (ctx : ChunkCtx) (st : ChunkState) : Str :=
  if ctx.chunkLength ≤ ctx.bodyLength - st.dataCount then chunkHeaderOf ctx
  else if st.dataCount ≠ ctx.bodyLength then lastHeaderOf ctx
  else finalHeader

/-- The lengths of the calls of a conforming driver: all full chunks,
the short final chunk when present, then the zero-length terminal call. -/
def conformingLens (bodyLength chunkLength : Nat) : List Nat :=
  let chunks := bodyLength / chunkLength
  let lastLength := bodyLength - chunks * chunkLength
  List.replicate chunks chunkLength ++
    (if lastLength ≠ 0 then [lastLength] else []) ++ [0]

/-! ### Step-level lemmas for the chunk signer -/

theorem chunkSignerCall_done (hmac : HmacFn) (sha : ShaFn) (ctx : ChunkCtx)
    (st : ChunkState) (c : Option Chunk) (hdone : st.done = true) :
    chunkSignerCall hmac sha ctx st c =
      (.error (str "Payload is complete, no more calls are needed"), st) := by
  rw [chunkSignerCall, hdone]
  rfl

theorem chunkSignerCall_badlen (hmac : HmacFn) (sha : ShaFn) (ctx : ChunkCtx)
    (st : ChunkState) (c : Option Chunk) (hdone : st.done = false)
    (hlen : chunkLen c ≠ expectedLen ctx st) :
    chunkSignerCall hmac sha ctx st c = (.error (str "Unexpected chunk size"), st) := by
  rw [chunkSignerCall, hdone]
  simp only [Bool.false_eq_true, if_false]
  by_cases h1 : ctx.bodyLength - st.dataCount < ctx.chunkLength
  · have h1' : ¬ ctx.chunkLength ≤ ctx.bodyLength - st.dataCount := by omega
    by_cases h2 : st.dataCount ≠ ctx.bodyLength
    · rw [expectedLen, if_neg h1', if_pos h2] at hlen
      simp [h1, h2, hlen]
    · rw [expectedLen, if_neg h1', if_neg h2] at hlen
      simp [h1, h2, hlen]
  · have h1' : ctx.chunkLength ≤ ctx.bodyLength - st.dataCount := by omega
    rw [expectedLen, if_pos h1'] at hlen
    simp [h1, hlen]

theorem chunkSignerCall_ok_eq (hmac : HmacFn) (sha : ShaFn) (ctx : ChunkCtx)
    (st : ChunkState) (c : Option Chunk) (hdone : st.done = false)
    (hlen : chunkLen c = expectedLen ctx st) :
    chunkSignerCall hmac sha ctx st c =
      (.ok ((if st.dataCount = 0 then [] else CRLF) ++ headerAt ctx st ++
        signS3Chunk hmac sha st.signature ctx.signing ctx.timestamp c ++ CRLF ++
        (if expectedLen ctx st = 0 then CRLF else [])),
       { signature := signS3Chunk hmac sha st.signature ctx.signing ctx.timestamp c,
         dataCount := st.dataCount + expectedLen ctx st,
         done := expectedLen ctx st == 0 }) := by
  rw [chunkSignerCall, hdone]
  simp only [Bool.false_eq_true, if_false]
  have hiff : ∀ L : Nat, (st.dataCount + L == L) = decide (st.dataCount = 0) := by
    intro L
    rw [show (st.dataCount + L == L) = decide (st.dataCount + L = L) from rfl]
    exact decide_eq_decide.mpr (by omega)
  by_cases h1 : ctx.bodyLength - st.dataCount < ctx.chunkLength
  · have h1' : ¬ ctx.chunkLength ≤ ctx.bodyLength - st.dataCount := by omega
    by_cases h2 : st.dataCount ≠ ctx.bodyLength
    · have hexp : expectedLen ctx st = lastLengthOf ctx := by
        rw [expectedLen, if_neg h1', if_pos h2]
      have hhd : headerAt ctx st = lastHeaderOf ctx := by
        rw [headerAt, if_neg h1', if_pos h2]
      rw [hexp] at hlen
      simp only [if_pos h1, if_pos h2, hlen, ne_eq, not_true_eq_false, if_false,
        hexp, hhd, hiff]
      by_cases hd0 : st.dataCount = 0 <;>
        by_cases hL0 : lastLengthOf ctx = 0 <;>
          simp [hd0, hL0]
    · have hexp : expectedLen ctx st = 0 := by
        rw [expectedLen, if_neg h1', if_neg h2]
      have hhd : headerAt ctx st = finalHeader := by
        rw [headerAt, if_neg h1', if_neg h2]
      rw [hexp] at hlen
      simp only [if_pos h1, if_neg h2, hlen, ne_eq, not_true_eq_false, if_false,
        hexp, hhd, hiff]
      by_cases hd0 : st.dataCount = 0 <;> simp [hd0]
  · have h1' : ctx.chunkLength ≤ ctx.bodyLength - st.dataCount := by omega
    have hexp : expectedLen ctx st = ctx.chunkLength := by
      rw [expectedLen, if_pos h1']
    have hhd : headerAt ctx st = chunkHeaderOf ctx := by
      rw [headerAt, if_pos h1']
    rw [hexp] at hlen
    simp only [if_neg h1, hlen, ne_eq, not_true_eq_false, if_false, hexp, hhd, hiff]
    by_cases hd0 : st.dataCount = 0 <;>
      by_cases hc0 : ctx.chunkLength = 0 <;>
        simp [hd0, hc0]


theorem chunkSignerCall_error_frame (hmac : HmacFn) (sha : ShaFn) (ctx : ChunkCtx)
    (st : ChunkState) (c : Option Chunk) (e : Str)
    (h : (chunkSignerCall hmac sha ctx st c).1 = .error e) :
    (chunkSignerCall hmac sha ctx st c).2 = st := by
  by_cases hdone : st.done = true
  · rw [chunkSignerCall_done hmac sha ctx st c hdone]
  · rw [Bool.not_eq_true] at hdone
    by_cases hlen : chunkLen c = expectedLen ctx st
    · rw [chunkSignerCall_ok_eq hmac sha ctx st c hdone hlen] at h
      exact absurd h (by simp)
    · rw [chunkSignerCall_badlen hmac sha ctx st c hdone hlen]

theorem chunkSignerCall_ok_iff (hmac : HmacFn) (sha : ShaFn) (ctx : ChunkCtx)
    (st : ChunkState) (c : Option Chunk) (hdone : st.done = false) :
    (∃ out, (chunkSignerCall hmac sha ctx st c).1 = .ok out) ↔
      chunkLen c = expectedLen ctx st := by
  constructor
  · intro hout
    obtain ⟨out, hout⟩ := hout
    by_contra hlen
    rw [chunkSignerCall_badlen hmac sha ctx st c hdone hlen] at hout
    exact Except.noConfusion hout
  · intro hlen
    rw [chunkSignerCall_ok_eq hmac sha ctx st c hdone hlen]
    exact ⟨_, rfl⟩

/-! ### State invariants of the chunk signer (claim C10) -/

/-- Did a call succeed? -/
def exceptIsOk {ε α : Type} : Except ε α → Bool
  | .ok _ => true
  | .error _ => false

/-- Invariant of the chunk signer state: the signed byte count never
exceeds the declared body length, completion means everything was
signed, and the count is always either complete or a whole number of
full chunks. -/
def ChunkInv (ctx : ChunkCtx) (st : ChunkState) : Prop :=
  st.dataCount ≤ ctx.bodyLength ∧
  (st.done = true → st.dataCount = ctx.bodyLength) ∧
  (st.dataCount = ctx.bodyLength ∨
    ∃ k, k ≤ chunksOf ctx ∧ st.dataCount = k * ctx.chunkLength)

theorem chunkInv_init (ctx : ChunkCtx) (seed : Str) :
    ChunkInv ctx (initChunkState seed) :=
  ⟨Nat.zero_le _, by intro h; simp [initChunkState] at h,
    Or.inr ⟨0, Nat.zero_le _, by simp [initChunkState]⟩⟩

theorem chunks_mul_add_last (ctx : ChunkCtx) (hch : 0 < ctx.chunkLength) :
    chunksOf ctx * ctx.chunkLength + lastLengthOf ctx = ctx.bodyLength := by
  have h1 := Nat.mod_add_div' ctx.bodyLength ctx.chunkLength
  have h2 := Nat.mod_lt ctx.bodyLength hch
  rw [lastLengthOf, chunksOf]
  omega

theorem lastLength_lt (ctx : ChunkCtx) (hch : 0 < ctx.chunkLength) :
    lastLengthOf ctx < ctx.chunkLength := by
  have h1 := Nat.mod_add_div' ctx.bodyLength ctx.chunkLength
  have h2 := Nat.mod_lt ctx.bodyLength hch
  rw [lastLengthOf, chunksOf]
  omega

theorem chunkInv_step (hmac : HmacFn) (sha : ShaFn) (ctx : ChunkCtx)
    (st : ChunkState) (c : Option Chunk) (hch : 0 < ctx.chunkLength)
    (hinv : ChunkInv ctx st) :
    ChunkInv ctx (chunkSignerCall hmac sha ctx st c).2 := by
  by_cases hdone : st.done = true
  · rw [chunkSignerCall_done hmac sha ctx st c hdone]
    exact hinv
  · rw [Bool.not_eq_true] at hdone
    by_cases hlen : chunkLen c = expectedLen ctx st
    · rw [chunkSignerCall_ok_eq hmac sha ctx st c hdone hlen]
      obtain ⟨hle, _, hdisj⟩ := hinv
      have hmul : chunksOf ctx * ctx.chunkLength ≤ ctx.bodyLength :=
        Nat.div_mul_le_self _ _
      have hmod := chunks_mul_add_last ctx hch
      by_cases h1' : ctx.chunkLength ≤ ctx.bodyLength - st.dataCount
      · -- full chunk accepted
        have hexp : expectedLen ctx st = ctx.chunkLength := by
          rw [expectedLen, if_pos h1']
        rcases hdisj with hdb | hk
        · omega
        · obtain ⟨k, hk, hdk⟩ := hk
          have hsucc : (k + 1) * ctx.chunkLength =
              k * ctx.chunkLength + ctx.chunkLength := Nat.succ_mul k _
          have hlt : k + 1 ≤ chunksOf ctx := by
            rw [chunksOf, Nat.le_div_iff_mul_le hch]
            omega
          refine ⟨by simp only [hexp]; omega, ?_, ?_⟩
          · intro hdone2
            simp only [hexp] at hdone2
            rw [show (ctx.chunkLength == 0) = decide (ctx.chunkLength = 0)
              from rfl] at hdone2
            have := of_decide_eq_true hdone2
            omega
          · right
            exact ⟨k + 1, hlt, by simp only [hexp]; omega⟩
      · by_cases h2 : st.dataCount ≠ ctx.bodyLength
        · -- short final chunk accepted
          have hexp : expectedLen ctx st = lastLengthOf ctx := by
            rw [expectedLen, if_neg h1', if_pos h2]
          rcases hdisj with hdb | hk
          · exact absurd hdb h2
          · obtain ⟨k, hk, hdk⟩ := hk
            have hkchunks : k = chunksOf ctx := by
              rcases Nat.lt_or_ge k (chunksOf ctx) with hklt | hkge
              · exfalso
                have hk1 : k + 1 ≤ chunksOf ctx := hklt
                have hle2 : (k + 1) * ctx.chunkLength ≤
                    chunksOf ctx * ctx.chunkLength :=
                  Nat.mul_le_mul_right _ hk1
                have hsucc : (k + 1) * ctx.chunkLength =
                    k * ctx.chunkLength + ctx.chunkLength := Nat.succ_mul k _
                omega
              · exact le_antisymm hk hkge
            subst hkchunks
            refine ⟨by simp only [hexp]; omega, ?_, ?_⟩
            · intro _
              simp only [hexp]
              omega
            · left
              simp only [hexp]
              omega
        · -- terminal marker
          have hexp : expectedLen ctx st = 0 := by
            rw [expectedLen, if_neg h1', if_neg h2]
          rw [Classical.not_not] at h2
          exact ⟨by simp only [hexp]; omega, fun _ => by simp only [hexp]; omega,
            Or.inl (by simp only [hexp]; omega)⟩
    · rw [chunkSignerCall_badlen hmac sha ctx st c hdone hlen]
      exact hinv

theorem chunkSignerCall_ok_dataCount (hmac : HmacFn) (sha : ShaFn) (ctx : ChunkCtx)
    (st : ChunkState) (c : Option Chunk) (out : Str)
    (h : (chunkSignerCall hmac sha ctx st c).1 = .ok out) :
    (chunkSignerCall hmac sha ctx st c).2.dataCount = st.dataCount + chunkLen c := by
  by_cases hdone : st.done = true
  · rw [chunkSignerCall_done hmac sha ctx st c hdone] at h
    exact Except.noConfusion h
  · rw [Bool.not_eq_true] at hdone
    by_cases hlen : chunkLen c = expectedLen ctx st
    · rw [chunkSignerCall_ok_eq hmac sha ctx st c hdone hlen, hlen]
    · rw [chunkSignerCall_badlen hmac sha ctx st c hdone hlen] at h
      exact Except.noConfusion h

theorem runChunkSigner_inv (hmac : HmacFn) (sha : ShaFn) (ctx : ChunkCtx)
    (hch : 0 < ctx.chunkLength) (cs : List (Option Chunk)) (st : ChunkState)
    (hinv : ChunkInv ctx st) :
    ChunkInv ctx (runChunkSigner hmac sha ctx st cs).2 := by
  induction cs generalizing st with
  | nil => exact hinv
  | cons c cs ih =>
    exact ih _ (chunkInv_step hmac sha ctx st c hch hinv)

theorem runChunkSigner_dataCount (hmac : HmacFn) (sha : ShaFn) (ctx : ChunkCtx)
    (cs : List (Option Chunk)) (st : ChunkState) :
    (runChunkSigner hmac sha ctx st cs).2.dataCount =
      st.dataCount +
        (((cs.zip (runChunkSigner hmac sha ctx st cs).1).filter
          (fun p => exceptIsOk p.2)).map (fun p => chunkLen p.1)).sum := by
  have hok : ∀ (a : Str), exceptIsOk (Except.ok a : Except Str Str) = true :=
    fun _ => rfl
  have herr : ∀ (e : Str), exceptIsOk (Except.error e : Except Str Str) = false :=
    fun _ => rfl
  induction cs generalizing st with
  | nil => simp [runChunkSigner]
  | cons c cs ih =>
    rw [runChunkSigner]
    cases hr : (chunkSignerCall hmac sha ctx st c).1 with
    | ok out =>
      have hd := chunkSignerCall_ok_dataCount hmac sha ctx st c out hr
      simp only [List.zip_cons_cons, hr, List.filter_cons, hok,
        ite_true, List.map_cons, List.sum_cons]
      rw [ih ((chunkSignerCall hmac sha ctx st c).2), hd]
      omega
    | error e =>
      have hst := chunkSignerCall_error_frame hmac sha ctx st c e hr
      simp only [List.zip_cons_cons, hr, List.filter_cons, herr,
        Bool.false_eq_true, if_false]
      rw [ih ((chunkSignerCall hmac sha ctx st c).2), hst]

/-! ### Claim C10 -/

/-- C10: in every state of the chunk signer reachable by a sequence of
calls from its creation, the cumulative count dataCount stays between 0
and bodyLength (the lower bound holds by the Nat embedding) and equals
the sum of the lengths of the accepted (non-throwing) calls; the done
flag implies dataCount = bodyLength; and a call that throws returns
with the state (signature, dataCount and done flag) unchanged. -/
theorem C10_chunk_signer_invariants (hmac : HmacFn) (sha : ShaFn) (ctx : ChunkCtx)
    (hch : CHUNK_MIN ≤ ctx.chunkLength) (seed : Str) (cs : List (Option Chunk)) :
    (∀ st c e, (chunkSignerCall hmac sha ctx st c).1 = .error e →
      (chunkSignerCall hmac sha ctx st c).2 = st) ∧
    (runChunkSigner hmac sha ctx (initChunkState seed) cs).2.dataCount ≤
      ctx.bodyLength ∧
    ((runChunkSigner hmac sha ctx (initChunkState seed) cs).2.done = true →
      (runChunkSigner hmac sha ctx (initChunkState seed) cs).2.dataCount =
        ctx.bodyLength) ∧
    (runChunkSigner hmac sha ctx (initChunkState seed) cs).2.dataCount =
      (((cs.zip (runChunkSigner hmac sha ctx (initChunkState seed) cs).1).filter
        (fun p => exceptIsOk p.2)).map (fun p => chunkLen p.1)).sum := by
  have hch0 : 0 < ctx.chunkLength := by
    have : (0 : Nat) < CHUNK_MIN := by decide
    omega
  have hinv := runChunkSigner_inv hmac sha ctx hch0 cs (initChunkState seed)
    (chunkInv_init ctx seed)
  refine ⟨fun st c e h => chunkSignerCall_error_frame hmac sha ctx st c e h,
    hinv.1, hinv.2.1, ?_⟩
  have hsum := runChunkSigner_dataCount hmac sha ctx cs (initChunkState seed)
  simpa [initChunkState] using hsum

/-- C10 witness: the invariants at a concrete context and call list. -/
theorem C10_witness :
    (∀ st c e, (chunkSignerCall dummyHmac dummySha
        ⟨100, 8192, ⟨[], []⟩, []⟩ st c).1 = .error e →
      (chunkSignerCall dummyHmac dummySha ⟨100, 8192, ⟨[], []⟩, []⟩ st c).2 = st) ∧
    (runChunkSigner dummyHmac dummySha ⟨100, 8192, ⟨[], []⟩, []⟩
      (initChunkState []) [some (.desc (str "h") 100)]).2.dataCount ≤ 100 ∧
    ((runChunkSigner dummyHmac dummySha ⟨100, 8192, ⟨[], []⟩, []⟩
      (initChunkState []) [some (.desc (str "h") 100)]).2.done = true →
      (runChunkSigner dummyHmac dummySha ⟨100, 8192, ⟨[], []⟩, []⟩
        (initChunkState []) [some (.desc (str "h") 100)]).2.dataCount = 100) ∧
    (runChunkSigner dummyHmac dummySha ⟨100, 8192, ⟨[], []⟩, []⟩
      (initChunkState []) [some (.desc (str "h") 100)]).2.dataCount =
      ((([some (Chunk.desc (str "h") 100)].zip
        (runChunkSigner dummyHmac dummySha ⟨100, 8192, ⟨[], []⟩, []⟩
          (initChunkState []) [some (.desc (str "h") 100)]).1).filter
        (fun p => exceptIsOk p.2)).map (fun p => chunkLen p.1)).sum :=
  C10_chunk_signer_invariants dummyHmac dummySha ⟨100, 8192, ⟨[], []⟩, []⟩
    (by decide) [] [some (.desc (str "h") 100)]


/-! ### Conforming runs of the chunk signer -/

theorem beq_zero_false (n : Nat) (h : n ≠ 0) : (n == 0) = false := by
  rw [show (n == 0) = decide (n = 0) from rfl]
  simp [h]

theorem signS3Chunk_length (hmac : HmacFn) (sha : ShaFn)
    (hhm : ∀ k m, (hmac k m).length = 32) (sig : Str) (signing : SigningData)
    (timestamp : Str) (c : Option Chunk) :
    (signS3Chunk hmac sha sig signing timestamp c).length = 64 := by
  simp [signS3Chunk, signDigest, signString, hexEncode_length, hhm]

theorem signS3Chunk_hex (hmac : HmacFn) (sha : ShaFn) (sig : Str)
    (signing : SigningData) (timestamp : Str) (c : Option Chunk) :
    ∀ x ∈ signS3Chunk hmac sha sig signing timestamp c, isHexLower x = true := by
  simp only [signS3Chunk]
  exact hexEncode_all_hex _

theorem natToHexCore_hex (fuel : Nat) : ∀ n, ∀ c ∈ natToHexCore fuel n,
    isHexLower c = true := by
  induction fuel with
  | zero => intro n c hc; simp [natToHexCore] at hc
  | succ fuel ih =>
    intro n c hc
    rw [natToHexCore] at hc
    by_cases h : n < 16
    · rw [if_pos h] at hc
      simp only [List.mem_cons, List.not_mem_nil, or_false] at hc
      exact hc ▸ isHexLower_hexDigitChar n h
    · rw [if_neg h] at hc
      rcases List.mem_append.mp hc with hc | hc
      · exact ih _ c hc
      · simp only [List.mem_cons, List.not_mem_nil, or_false] at hc
        exact hc ▸ isHexLower_hexDigitChar _ (Nat.mod_lt _ (by omega))

theorem natToHex_head (n : Nat) :
    ∃ d rest, natToHex n = d :: rest ∧ isHexLower d = true := by
  have hne : natToHex n ≠ [] := by
    rw [natToHex, natToHexCore]
    by_cases h : n < 16
    · simp [h]
    · simp [h]
  cases hx : natToHex n with
  | nil => exact absurd hx hne
  | cons d rest =>
    refine ⟨d, rest, rfl, ?_⟩
    have : d ∈ natToHex n := by rw [hx]; simp
    exact natToHexCore_hex _ _ d this

/-- Every frame header starts with a lowercase hexadecimal digit. -/
theorem header_head_hex (hdr : Str)
    (h : (∃ k, hdr = natToHex k ++ str ";chunk-signature=")) :
    ∃ d rest, hdr = d :: rest ∧ isHexLower d = true := by
  obtain ⟨k, rfl⟩ := h
  obtain ⟨d, rest, hd, hhex⟩ := natToHex_head k
  exact ⟨d, rest ++ str ";chunk-signature=", by rw [hd]; rfl, hhex⟩

theorem runOk_full (hmac : HmacFn) (sha : ShaFn) (ctx : ChunkCtx)
    (hhm : ∀ k m, (hmac k m).length = 32) (hch : 0 < ctx.chunkLength)
    (cs : List (Option Chunk)) (m : Nat) (sig : Str) (d : Nat)
    (hcs : cs.map chunkLen = List.replicate m ctx.chunkLength)
    (hd : d + m * ctx.chunkLength + lastLengthOf ctx = ctx.bodyLength) :
    ∃ outs sig2,
      runChunkSignerOk hmac sha ctx ⟨sig, d, false⟩ cs =
        some (outs, ⟨sig2, d + m * ctx.chunkLength, false⟩) ∧
      outs.length = m ∧
      (∀ i (hi : i < outs.length),
        ∃ s : Str, s.length = 64 ∧ (∀ x ∈ s, isHexLower x = true) ∧
          outs.get ⟨i, hi⟩ =
            (if d + i * ctx.chunkLength = 0 then [] else CRLF) ++
              chunkHeaderOf ctx ++ s ++ CRLF) ∧
      (outs.map List.length).sum =
        m * ((chunkHeaderOf ctx).length + 68) -
          (if d = 0 ∧ 0 < m then 2 else 0) := by
  induction cs generalizing m sig d with
  | nil =>
    have hm : m = 0 := by
      have hlen := congrArg List.length hcs
      simpa using hlen.symm
    subst hm
    refine ⟨[], sig, by simp [runChunkSignerOk], rfl, ?_, by simp⟩
    intro i hi
    simp at hi
  | cons c cs ih =>
    cases m with
    | zero => simp at hcs
    | succ m' =>
      rw [List.map_cons, List.replicate_succ] at hcs
      have hc : chunkLen c = ctx.chunkLength := by
        injection hcs
      have hcs' : cs.map chunkLen = List.replicate m' ctx.chunkLength := by
        injection hcs
      have hsucc : (m' + 1) * ctx.chunkLength =
          m' * ctx.chunkLength + ctx.chunkLength := Nat.succ_mul _ _
      rw [hsucc] at hd
      have hrem : ctx.chunkLength ≤ ctx.bodyLength -
          (ChunkState.mk sig d false).dataCount := by
        simp only []
        omega
      have hexp : expectedLen ctx ⟨sig, d, false⟩ = ctx.chunkLength := by
        rw [expectedLen, if_pos hrem]
      have hhd2 : headerAt ctx ⟨sig, d, false⟩ = chunkHeaderOf ctx := by
        rw [headerAt, if_pos hrem]
      have hchne : ctx.chunkLength ≠ 0 := by omega
      have hstep := chunkSignerCall_ok_eq hmac sha ctx ⟨sig, d, false⟩ c rfl
        (by rw [hc, hexp])
      rw [hexp, hhd2, beq_zero_false _ hchne, if_neg hchne] at hstep
      simp only [] at hstep
      obtain ⟨outs', sig2, hrun', hlen', hshape', hsum'⟩ :=
        ih m' (signS3Chunk hmac sha sig ctx.signing ctx.timestamp c)
          (d + ctx.chunkLength) hcs' (by omega)
      have hfinal : d + ctx.chunkLength + m' * ctx.chunkLength =
          d + (m' + 1) * ctx.chunkLength := by
        rw [hsucc]
        omega
      refine ⟨((if d = 0 then [] else CRLF) ++ chunkHeaderOf ctx ++
          signS3Chunk hmac sha sig ctx.signing ctx.timestamp c ++ CRLF ++ []) :: outs',
        sig2, ?_, by simp [hlen'], ?_, ?_⟩
      · rw [runChunkSignerOk, hstep]
        simp only []
        rw [hfinal] at hrun'
        rw [hrun']
      · intro i hi
        cases i with
        | zero =>
          refine ⟨signS3Chunk hmac sha sig ctx.signing ctx.timestamp c,
            signS3Chunk_length hmac sha hhm _ _ _ _,
            signS3Chunk_hex hmac sha _ _ _ _, ?_⟩
          simp only [List.get]
          rw [Nat.zero_mul, Nat.add_zero, List.append_nil]
        | succ j =>
          have hj : j < outs'.length := by
            simp only [List.length_cons] at hi
            omega
          obtain ⟨s, hs1, hs2, hs3⟩ := hshape' j hj
          refine ⟨s, hs1, hs2, ?_⟩
          simp only [List.get]
          rw [hs3]
          have harith : d + ctx.chunkLength + j * ctx.chunkLength =
              d + (j + 1) * ctx.chunkLength := by
            rw [Nat.succ_mul]
            omega
          rw [harith]
      · have hne : ¬ (d + ctx.chunkLength = 0 ∧ 0 < m') := by omega
        rw [if_neg hne] at hsum'
        simp only [List.map_cons, List.sum_cons, hsum']
        have hlen0 : ((if d = 0 then ([] : Str) else CRLF) ++ chunkHeaderOf ctx ++
            signS3Chunk hmac sha sig ctx.signing ctx.timestamp c ++ CRLF ++
            []).length = (if d = 0 then 0 else 2) + (chunkHeaderOf ctx).length +
              64 + 2 := by
          simp only [List.length_append, List.length_nil,
            signS3Chunk_length hmac sha hhm]
          by_cases hd0 : d = 0 <;> simp [hd0, CRLF]
        rw [hlen0]
        have hms : (m' + 1) * ((chunkHeaderOf ctx).length + 68) =
            m' * ((chunkHeaderOf ctx).length + 68) +
            ((chunkHeaderOf ctx).length + 68) := Nat.succ_mul _ _
        by_cases hd0 : d = 0
        · simp only [hd0, true_and]
          rw [hms]
          have hpos : 0 < m' + 1 := Nat.succ_pos m'
          simp only [hpos, if_true]
          omega
        · have h1 : ¬ (d = 0 ∧ 0 < m' + 1) := by
            intro hcontra
            exact hd0 hcontra.1
          rw [if_neg h1]
          simp only [hd0, if_false]
          rw [hms]
          omega

theorem runChunkSignerOk_append (hmac : HmacFn) (sha : ShaFn) (ctx : ChunkCtx)
    (cs1 cs2 : List (Option Chunk)) (st : ChunkState) :
    runChunkSignerOk hmac sha ctx st (cs1 ++ cs2) =
      match runChunkSignerOk hmac sha ctx st cs1 with
      | some (outs1, st1) =>
        match runChunkSignerOk hmac sha ctx st1 cs2 with
        | some (outs2, st2) => some (outs1 ++ outs2, st2)
        | none => none
      | none => none := by
  induction cs1 generalizing st with
  | nil =>
    simp only [List.nil_append, runChunkSignerOk]
    cases runChunkSignerOk hmac sha ctx st cs2 with
    | some p => cases p; rfl
    | none => rfl
  | cons c cs1 ih =>
    simp only [List.cons_append, runChunkSignerOk]
    cases chunkSignerCall hmac sha ctx st c with
    | mk r st' =>
      cases r with
      | ok out =>
        simp only [List.append_eq]
        rw [ih st']
        cases runChunkSignerOk hmac sha ctx st' cs1 with
        | some p =>
          obtain ⟨outs1, st1⟩ := p
          simp only []
          cases runChunkSignerOk hmac sha ctx st1 cs2 with
          | some q => obtain ⟨outs2, st2⟩ := q; rfl
          | none => rfl
        | none => rfl
      | error e => rfl

theorem map_chunkLen_pair {l : List (Option Chunk)} {x y : Nat}
    (h : l.map chunkLen = [x, y]) :
    ∃ a b, l = [a, b] ∧ chunkLen a = x ∧ chunkLen b = y := by
  cases l with
  | nil => simp at h
  | cons a t =>
    cases t with
    | nil => simp at h
    | cons b t2 =>
      cases t2 with
      | nil =>
        simp only [List.map_cons, List.map_nil, List.cons.injEq, and_true] at h
        exact ⟨a, b, rfl, h.1, h.2⟩
      | cons z t3 => simp at h

theorem map_chunkLen_single {l : List (Option Chunk)} {x : Nat}
    (h : l.map chunkLen = [x]) : ∃ a, l = [a] ∧ chunkLen a = x := by
  cases l with
  | nil => simp at h
  | cons a t =>
    cases t with
    | nil =>
      simp only [List.map_cons, List.map_nil, List.cons.injEq, and_true] at h
      exact ⟨a, rfl, h⟩
    | cons b t2 => simp at h

/-- The header a conforming driver sees at call position `i`. -/
def conformingHeader (ctx : ChunkCtx) (i : Nat) : Str :=
  if i < chunksOf ctx then chunkHeaderOf ctx
  else if i = chunksOf ctx ∧ lastLengthOf ctx ≠ 0 then lastHeaderOf ctx
  else finalHeader

theorem conformingLens_eq (ctx : ChunkCtx) :
    conformingLens ctx.bodyLength ctx.chunkLength =
      List.replicate (chunksOf ctx) ctx.chunkLength ++
        ((if lastLengthOf ctx ≠ 0 then [lastLengthOf ctx] else []) ++ [0]) := by
  rw [conformingLens, List.append_assoc]
  rfl

theorem chunkedTotalLength_eq (ctx : ChunkCtx) :
    chunkedTotalLength ctx.bodyLength ctx.chunkLength =
      ctx.bodyLength + ((chunkHeaderOf ctx).length + 64 + 4) * chunksOf ctx +
      (if lastLengthOf ctx ≠ 0 then (lastHeaderOf ctx).length + 64 + 4 else 0) +
      (finalHeader.length + 64 + 4) := rfl

theorem conforming_run_master (hmac : HmacFn) (sha : ShaFn) (ctx : ChunkCtx)
    (hhm : ∀ k m, (hmac k m).length = 32) (hch : 0 < ctx.chunkLength)
    (seed : Str) (cs : List (Option Chunk))
    (hcs : cs.map chunkLen = conformingLens ctx.bodyLength ctx.chunkLength) :
    ∃ outs fin,
      runChunkSignerOk hmac sha ctx (initChunkState seed) cs = some (outs, fin) ∧
      fin.done = true ∧ fin.dataCount = ctx.bodyLength ∧
      outs.length = chunksOf ctx + (if lastLengthOf ctx ≠ 0 then 1 else 0) + 1 ∧
      (∀ i (hi : i < outs.length),
        ∃ s : Str, s.length = 64 ∧ (∀ x ∈ s, isHexLower x = true) ∧
          outs.get ⟨i, hi⟩ =
            (if i = 0 then [] else CRLF) ++ conformingHeader ctx i ++ s ++ CRLF ++
            (if i + 1 = outs.length then CRLF else [])) ∧
      ctx.bodyLength + (outs.map List.length).sum =
        chunkedTotalLength ctx.bodyLength ctx.chunkLength := by
  have hmod := chunks_mul_add_last ctx hch
  have hlastlt := lastLength_lt ctx hch
  rw [conformingLens_eq] at hcs
  obtain ⟨cs1, cs23, rfl, hm1, hm2⟩ := List.map_eq_append_iff.mp hcs
  obtain ⟨outs1, sig2, hrun1, hlen1, hshape1, hsum1⟩ :=
    runOk_full hmac sha ctx hhm hch cs1 (chunksOf ctx) seed 0 hm1 (by omega)
  simp only [Nat.zero_add] at hrun1
  by_cases hl : lastLengthOf ctx ≠ 0
  · -- body length is not a multiple of the chunk length
    rw [if_pos hl] at hm2
    obtain ⟨c1, c2, rfl, hc1, hc2⟩ := map_chunkLen_pair hm2
    -- short final chunk
    have hne : chunksOf ctx * ctx.chunkLength ≠ ctx.bodyLength := by omega
    have hrem : ¬ ctx.chunkLength ≤ ctx.bodyLength -
        (ChunkState.mk sig2 (chunksOf ctx * ctx.chunkLength) false).dataCount := by
      simp only []
      omega
    have hexpA : expectedLen ctx ⟨sig2, chunksOf ctx * ctx.chunkLength, false⟩ =
        lastLengthOf ctx := by
      rw [expectedLen, if_neg hrem, if_pos hne]
    have hhdA : headerAt ctx ⟨sig2, chunksOf ctx * ctx.chunkLength, false⟩ =
        lastHeaderOf ctx := by
      rw [headerAt, if_neg hrem, if_pos hne]
    have hstepA := chunkSignerCall_ok_eq hmac sha ctx
      ⟨sig2, chunksOf ctx * ctx.chunkLength, false⟩ c1 rfl (by rw [hc1, hexpA])
    rw [hexpA, hhdA, beq_zero_false _ hl, if_neg hl] at hstepA
    simp only [] at hstepA
    rw [hmod] at hstepA
    -- terminal marker
    set s1 := signS3Chunk hmac sha sig2 ctx.signing ctx.timestamp c1 with hs1def
    have hremB : ¬ ctx.chunkLength ≤ ctx.bodyLength -
        (ChunkState.mk s1 ctx.bodyLength false).dataCount := by
      simp only []
      omega
    have hneB : ¬ (ChunkState.mk s1 ctx.bodyLength false).dataCount ≠
        ctx.bodyLength := by
      simp only []
      omega
    have hexpB : expectedLen ctx ⟨s1, ctx.bodyLength, false⟩ = 0 := by
      rw [expectedLen, if_neg hremB, if_neg hneB]
    have hhdB : headerAt ctx ⟨s1, ctx.bodyLength, false⟩ = finalHeader := by
      rw [headerAt, if_neg hremB, if_neg hneB]
    have hstepB := chunkSignerCall_ok_eq hmac sha ctx
      ⟨s1, ctx.bodyLength, false⟩ c2 rfl (by rw [hc2, hexpB])
    rw [hexpB, hhdB] at hstepB
    simp only [Nat.add_zero, eq_self_iff_true, if_true, beq_self_eq_true]
      at hstepB
    set s2 := signS3Chunk hmac sha s1 ctx.signing ctx.timestamp c2 with hs2def
    -- compose the run
    have hrun2 : runChunkSignerOk hmac sha ctx
        ⟨sig2, chunksOf ctx * ctx.chunkLength, false⟩ [c1, c2] =
        some ([(if chunksOf ctx * ctx.chunkLength = 0 then [] else CRLF) ++
            lastHeaderOf ctx ++ s1 ++ CRLF ++ [],
          (if ctx.bodyLength = 0 then [] else CRLF) ++ finalHeader ++ s2 ++
            CRLF ++ CRLF], ⟨s2, ctx.bodyLength, true⟩) := by
      simp only [runChunkSignerOk, hstepA, hstepB]
    have hcomp : runChunkSignerOk hmac sha ctx (initChunkState seed)
        (cs1 ++ [c1, c2]) =
        some (outs1 ++ [(if chunksOf ctx * ctx.chunkLength = 0 then [] else CRLF) ++
            lastHeaderOf ctx ++ s1 ++ CRLF ++ [],
          (if ctx.bodyLength = 0 then [] else CRLF) ++ finalHeader ++ s2 ++
            CRLF ++ CRLF], ⟨s2, ctx.bodyLength, true⟩) := by
      rw [runChunkSignerOk_append]
      simp only [show (initChunkState seed : ChunkState) = ⟨seed, 0, false⟩
        from rfl, hrun1, hrun2]
    rw [hcomp]
    have hb0 : ctx.bodyLength ≠ 0 := by omega
    refine ⟨outs1 ++ [_, _], ⟨s2, ctx.bodyLength, true⟩, rfl, rfl, rfl, ?_, ?_, ?_⟩
    · simp only [List.length_append, hlen1, List.length_cons, List.length_nil,
        if_pos hl]
    · intro i hi
      have hlen : (outs1 ++ [(if chunksOf ctx * ctx.chunkLength = 0 then []
          else CRLF) ++ lastHeaderOf ctx ++ s1 ++ CRLF ++ [],
          (if ctx.bodyLength = 0 then [] else CRLF) ++ finalHeader ++ s2 ++
            CRLF ++ CRLF]).length = chunksOf ctx + 2 := by
        simp [hlen1]
      rcases Nat.lt_trichotomy i (chunksOf ctx) with hilt | hieq | higt
      · obtain ⟨s, hsl, hshex, hval⟩ := hshape1 i (by omega)
        refine ⟨s, hsl, hshex, ?_⟩
        rw [List.get_append_left _ _ (by omega)]
        rw [hval]
        have hiff : (0 + i * ctx.chunkLength = 0) ↔ (i = 0) := by
          rw [Nat.zero_add]
          rcases Nat.eq_zero_or_pos i with rfl | hip
          · simp
          · constructor
            · intro hcontra
              rcases Nat.mul_eq_zero.mp hcontra with h | h <;> omega
            · omega
        rw [if_congr hiff rfl rfl]
        have hhdr : conformingHeader ctx i = chunkHeaderOf ctx := by
          rw [conformingHeader, if_pos hilt]
        have hsuf : ¬ (i + 1 = (outs1 ++ [(if chunksOf ctx * ctx.chunkLength = 0
            then [] else CRLF) ++ lastHeaderOf ctx ++ s1 ++ CRLF ++ [],
            (if ctx.bodyLength = 0 then [] else CRLF) ++ finalHeader ++ s2 ++
              CRLF ++ CRLF]).length) := by
          rw [hlen]
          omega
        rw [hhdr, if_neg hsuf, List.append_nil]
      · subst hieq
        refine ⟨s1, by rw [hs1def]; exact signS3Chunk_length hmac sha hhm _ _ _ _,
          by rw [hs1def]; exact signS3Chunk_hex hmac sha _ _ _ _, ?_⟩
        rw [List.get_append_right _ _ (by omega)]
        have hiff : (chunksOf ctx * ctx.chunkLength = 0) ↔ (chunksOf ctx = 0) := by
          constructor
          · intro hcontra
            rcases Nat.mul_eq_zero.mp hcontra with h | h <;> omega
          · intro h
            rw [h, Nat.zero_mul]
        have hhdr : conformingHeader ctx (chunksOf ctx) = lastHeaderOf ctx := by
          rw [conformingHeader, if_neg (by omega), if_pos ⟨rfl, hl⟩]
        have hsuf : ¬ (chunksOf ctx + 1 = (outs1 ++ [(if chunksOf ctx *
            ctx.chunkLength = 0 then [] else CRLF) ++ lastHeaderOf ctx ++ s1 ++
            CRLF ++ [], (if ctx.bodyLength = 0 then [] else CRLF) ++
            finalHeader ++ s2 ++ CRLF ++ CRLF]).length) := by
          rw [hlen]
          omega
        rw [if_neg hsuf, hhdr, if_congr hiff rfl rfl]
        simp only [hlen1, Nat.sub_self, List.get, List.append_nil]
        simp [hlen1]
      · have hieq2 : i = chunksOf ctx + 1 := by
          rw [hlen] at hi
          omega
        subst hieq2
        refine ⟨s2, by rw [hs2def]; exact signS3Chunk_length hmac sha hhm _ _ _ _,
          by rw [hs2def]; exact signS3Chunk_hex hmac sha _ _ _ _, ?_⟩
        have hhdr : conformingHeader ctx (chunksOf ctx + 1) = finalHeader := by
          rw [conformingHeader, if_neg (by omega), if_neg (by omega)]
        rw [if_pos (by rw [hlen] : chunksOf ctx + 1 + 1 = (outs1 ++
            [(if chunksOf ctx * ctx.chunkLength = 0 then [] else CRLF) ++
              lastHeaderOf ctx ++ s1 ++ CRLF ++ [],
              (if ctx.bodyLength = 0 then [] else CRLF) ++ finalHeader ++ s2 ++
                CRLF ++ CRLF]).length),
          List.get_append_right _ _ (by omega), hhdr]
        simp only [hlen1, Nat.add_sub_cancel_left, List.get]
        rw [if_neg hb0, if_neg (by omega : ¬ (chunksOf ctx + 1 = 0))]
        simp [hlen1]
    · -- total emitted length
      have hsumA : ((if chunksOf ctx * ctx.chunkLength = 0 then ([] : Str)
          else CRLF) ++ lastHeaderOf ctx ++ s1 ++ CRLF ++ []).length =
          (if chunksOf ctx = 0 then 0 else 2) + (lastHeaderOf ctx).length +
            64 + 2 := by
        simp only [List.length_append, List.length_nil, hs1def,
          signS3Chunk_length hmac sha hhm]
        rcases Nat.eq_zero_or_pos (chunksOf ctx) with h0 | h0
        · rw [h0]
          simp [CRLF]
        · rw [if_neg (by omega : ¬ chunksOf ctx = 0),
            if_neg (by
              intro hcontra
              rcases Nat.mul_eq_zero.mp hcontra with h | h <;> omega)]
          simp [CRLF]
      have hsumB : ((if ctx.bodyLength = 0 then ([] : Str) else CRLF) ++
          finalHeader ++ s2 ++ CRLF ++ CRLF).length =
          2 + finalHeader.length + 64 + 2 + 2 := by
        simp only [List.length_append, hs2def,
          signS3Chunk_length hmac sha hhm, if_neg hb0]
        simp [CRLF]
      have hcomm : ((chunkHeaderOf ctx).length + 64 + 4) * chunksOf ctx =
          chunksOf ctx * ((chunkHeaderOf ctx).length + 68) := by
        rw [Nat.mul_comm]
      rcases Nat.eq_zero_or_pos (chunksOf ctx) with h0 | h0
      · have hs1z : (outs1.map List.length).sum = 0 := by
          rw [hsum1, h0]
          simp
        have hmz : chunksOf ctx * ((chunkHeaderOf ctx).length + 68) = 0 := by
          rw [h0, Nat.zero_mul]
        simp only [List.map_append, List.sum_append, List.map_cons,
          List.map_nil, List.sum_cons, List.sum_nil, hs1z, hsumA, hsumB,
          chunkedTotalLength_eq, hcomm, hmz, if_pos hl, if_pos h0]
        omega
      · have hs1p : (outs1.map List.length).sum =
            chunksOf ctx * ((chunkHeaderOf ctx).length + 68) - 2 := by
          rw [hsum1]
          congr 1
          simp [h0]
        have hge : (chunkHeaderOf ctx).length + 68 ≤
            chunksOf ctx * ((chunkHeaderOf ctx).length + 68) :=
          Nat.le_mul_of_pos_left _ h0
        simp only [List.map_append, List.sum_append, List.map_cons,
          List.map_nil, List.sum_cons, List.sum_nil, hs1p, hsumA, hsumB,
          chunkedTotalLength_eq, hcomm, if_pos hl,
          if_neg (by omega : ¬ chunksOf ctx = 0)]
        omega
  · -- body length is a multiple of the chunk length
    rw [if_neg hl, List.nil_append] at hm2
    rw [Classical.not_not] at hl
    obtain ⟨c2, rfl, hc2⟩ := map_chunkLen_single hm2
    have hdb : chunksOf ctx * ctx.chunkLength = ctx.bodyLength := by omega
    rw [hdb] at hrun1
    have hremB : ¬ ctx.chunkLength ≤ ctx.bodyLength -
        (ChunkState.mk sig2 ctx.bodyLength false).dataCount := by
      simp only []
      omega
    have hneB : ¬ (ChunkState.mk sig2 ctx.bodyLength false).dataCount ≠
        ctx.bodyLength := by
      simp only []
      omega
    have hexpB : expectedLen ctx ⟨sig2, ctx.bodyLength, false⟩ = 0 := by
      rw [expectedLen, if_neg hremB, if_neg hneB]
    have hhdB : headerAt ctx ⟨sig2, ctx.bodyLength, false⟩ = finalHeader := by
      rw [headerAt, if_neg hremB, if_neg hneB]
    have hstepB := chunkSignerCall_ok_eq hmac sha ctx
      ⟨sig2, ctx.bodyLength, false⟩ c2 rfl (by rw [hc2, hexpB])
    rw [hexpB, hhdB] at hstepB
    simp only [Nat.add_zero, eq_self_iff_true, if_true, beq_self_eq_true]
      at hstepB
    set s2 := signS3Chunk hmac sha sig2 ctx.signing ctx.timestamp c2 with hs2def
    have hrun2 : runChunkSignerOk hmac sha ctx
        ⟨sig2, ctx.bodyLength, false⟩ [c2] =
        some ([(if ctx.bodyLength = 0 then [] else CRLF) ++ finalHeader ++ s2 ++
          CRLF ++ CRLF], ⟨s2, ctx.bodyLength, true⟩) := by
      simp only [runChunkSignerOk, hstepB]
    have hcomp : runChunkSignerOk hmac sha ctx (initChunkState seed)
        (cs1 ++ [c2]) =
        some (outs1 ++ [(if ctx.bodyLength = 0 then [] else CRLF) ++
          finalHeader ++ s2 ++ CRLF ++ CRLF], ⟨s2, ctx.bodyLength, true⟩) := by
      rw [runChunkSignerOk_append]
      simp only [show (initChunkState seed : ChunkState) = ⟨seed, 0, false⟩
        from rfl, hrun1, hrun2]
    rw [hcomp]
    refine ⟨outs1 ++ [_], ⟨s2, ctx.bodyLength, true⟩, rfl, rfl, rfl, ?_, ?_, ?_⟩
    · simp only [List.length_append, hlen1, List.length_cons, List.length_nil,
        if_neg (by omega : ¬ lastLengthOf ctx ≠ 0)]
    · intro i hi
      have hlen : (outs1 ++ [(if ctx.bodyLength = 0 then [] else CRLF) ++
          finalHeader ++ s2 ++ CRLF ++ CRLF]).length = chunksOf ctx + 1 := by
        simp [hlen1]
      rcases Nat.lt_trichotomy i (chunksOf ctx) with hilt | hieq | higt
      · obtain ⟨s, hsl, hshex, hval⟩ := hshape1 i (by omega)
        refine ⟨s, hsl, hshex, ?_⟩
        rw [List.get_append_left _ _ (by omega)]
        rw [hval]
        have hiff : (0 + i * ctx.chunkLength = 0) ↔ (i = 0) := by
          rw [Nat.zero_add]
          rcases Nat.eq_zero_or_pos i with rfl | hip
          · simp
          · constructor
            · intro hcontra
              rcases Nat.mul_eq_zero.mp hcontra with h | h <;> omega
            · omega
        rw [if_congr hiff rfl rfl]
        have hhdr : conformingHeader ctx i = chunkHeaderOf ctx := by
          rw [conformingHeader, if_pos hilt]
        have hsuf : ¬ (i + 1 = (outs1 ++ [(if ctx.bodyLength = 0 then []
            else CRLF) ++ finalHeader ++ s2 ++ CRLF ++ CRLF]).length) := by
          rw [hlen]
          omega
        rw [hhdr, if_neg hsuf, List.append_nil]
      · subst hieq
        refine ⟨s2, by rw [hs2def]; exact signS3Chunk_length hmac sha hhm _ _ _ _,
          by rw [hs2def]; exact signS3Chunk_hex hmac sha _ _ _ _, ?_⟩
        have hiff : (ctx.bodyLength = 0) ↔ (chunksOf ctx = 0) := by
          constructor
          · intro h
            have h3 : chunksOf ctx * ctx.chunkLength = 0 := by omega
            rcases Nat.mul_eq_zero.mp h3 with h2 | h2 <;> omega
          · intro h
            rw [h, Nat.zero_mul] at hdb
            omega
        have hhdr : conformingHeader ctx (chunksOf ctx) = finalHeader := by
          rw [conformingHeader, if_neg (by omega),
            if_neg (by intro hcontra; exact hcontra.2 hl)]
        rw [if_pos (by rw [hlen] : chunksOf ctx + 1 = (outs1 ++
            [(if ctx.bodyLength = 0 then [] else CRLF) ++ finalHeader ++ s2 ++
              CRLF ++ CRLF]).length),
          List.get_append_right _ _ (by omega), hhdr]
        simp only [hlen1, Nat.sub_self, List.get]
        rw [if_congr hiff rfl rfl]
        simp [hlen1]
      · rw [hlen] at hi
        omega
    · have hsumB : ((if ctx.bodyLength = 0 then ([] : Str) else CRLF) ++
          finalHeader ++ s2 ++ CRLF ++ CRLF).length =
          (if chunksOf ctx = 0 then 0 else 2) + finalHeader.length +
            64 + 2 + 2 := by
        simp only [List.length_append, hs2def,
          signS3Chunk_length hmac sha hhm]
        rcases Nat.eq_zero_or_pos (chunksOf ctx) with h0 | h0
        · have hbz : ctx.bodyLength = 0 := by
            rw [h0, Nat.zero_mul] at hdb
            omega
          rw [hbz, h0]
          simp [CRLF]
        · have hbnz : ¬ ctx.bodyLength = 0 := by
            intro hcontra
            have : chunksOf ctx * ctx.chunkLength = 0 := by omega
            rcases Nat.mul_eq_zero.mp this with h2 | h2 <;> omega
          rw [if_neg hbnz, if_neg (by omega : ¬ chunksOf ctx = 0)]
          simp [CRLF]
      have hcomm : ((chunkHeaderOf ctx).length + 64 + 4) * chunksOf ctx =
          chunksOf ctx * ((chunkHeaderOf ctx).length + 68) := by
        rw [Nat.mul_comm]
      rcases Nat.eq_zero_or_pos (chunksOf ctx) with h0 | h0
      · have hs1z : (outs1.map List.length).sum = 0 := by
          rw [hsum1, h0]
          simp
        have hmz : chunksOf ctx * ((chunkHeaderOf ctx).length + 68) = 0 := by
          rw [h0, Nat.zero_mul]
        simp only [List.map_append, List.sum_append, List.map_cons,
          List.map_nil, List.sum_cons, List.sum_nil, hs1z, hsumB,
          chunkedTotalLength_eq, hcomm, hmz,
          if_neg (by omega : ¬ lastLengthOf ctx ≠ 0), if_pos h0]
        omega
      · have hs1p : (outs1.map List.length).sum =
            chunksOf ctx * ((chunkHeaderOf ctx).length + 68) - 2 := by
          rw [hsum1]
          congr 1
          simp [h0]
        have hge : (chunkHeaderOf ctx).length + 68 ≤
            chunksOf ctx * ((chunkHeaderOf ctx).length + 68) :=
          Nat.le_mul_of_pos_left _ h0
        simp only [List.map_append, List.sum_append, List.map_cons,
          List.map_nil, List.sum_cons, List.sum_nil, hs1p, hsumB,
          chunkedTotalLength_eq, hcomm,
          if_neg (by omega : ¬ lastLengthOf ctx ≠ 0),
          if_neg (by omega : ¬ chunksOf ctx = 0)]
        omega

/-! ### Claims C1, C2, C3 -/

/-- C1: the chunk signer enforces the strict call contract.  With
`expectedLen` the expected length exactly as the claim states it
(chunkLength while at least a full chunk remains, else the short final
length while data remains, else zero): a call on an incomplete chain
succeeds exactly when the supplied chunk length equals the expected
length; a call on a completed chain throws; and a conforming driver
makes exactly chunks + (lastLength>0 ? 1 : 0) + 1 successful calls,
after which any further call throws. -/
theorem C1_chunk_signer_call_contract (hmac : HmacFn) (sha : ShaFn)
    (ctx : ChunkCtx) (hch : CHUNK_MIN ≤ ctx.chunkLength)
    (hhm : ∀ k m, (hmac k m).length = 32) (seed : Str)
    (cs : List (Option Chunk))
    (hcs : cs.map chunkLen = conformingLens ctx.bodyLength ctx.chunkLength) :
    (∀ st c, st.done = false →
      ((∃ out, (chunkSignerCall hmac sha ctx st c).1 = .ok out) ↔
        chunkLen c = expectedLen ctx st)) ∧
    (∀ st c, st.done = true → (chunkSignerCall hmac sha ctx st c).1 =
      .error (str "Payload is complete, no more calls are needed")) ∧
    (∃ outs fin,
      runChunkSignerOk hmac sha ctx (initChunkState seed) cs = some (outs, fin) ∧
      outs.length = chunksOf ctx + (if lastLengthOf ctx ≠ 0 then 1 else 0) + 1 ∧
      fin.done = true ∧
      ∀ c, (chunkSignerCall hmac sha ctx fin c).1 =
        .error (str "Payload is complete, no more calls are needed")) := by
  have hch0 : 0 < ctx.chunkLength := by
    have h8 : (0 : Nat) < CHUNK_MIN := by decide
    omega
  obtain ⟨outs, fin, hrun, hdone, _, hlen, _, _⟩ :=
    conforming_run_master hmac sha ctx hhm hch0 seed cs hcs
  exact ⟨fun st c h => chunkSignerCall_ok_iff hmac sha ctx st c h,
    fun st c h => by rw [chunkSignerCall_done hmac sha ctx st c h],
    outs, fin, hrun, hlen, hdone,
    fun c => by rw [chunkSignerCall_done hmac sha ctx fin c hdone]⟩

/-- C1 witness: the contract at bodyLength 0, chunkLength 8192, with the
single conforming terminal call. -/
theorem C1_witness :
    CHUNK_MIN ≤ 8192 ∧
    ([(none : Option Chunk)].map chunkLen = conformingLens 0 8192) ∧
    (∃ outs fin,
      runChunkSignerOk dummyHmac dummySha ⟨0, 8192, ⟨[], []⟩, []⟩
        (initChunkState []) [none] = some (outs, fin) ∧
      outs.length = chunksOf ⟨0, 8192, ⟨[], []⟩, []⟩ +
        (if lastLengthOf ⟨0, 8192, ⟨[], []⟩, []⟩ ≠ 0 then 1 else 0) + 1 ∧
      fin.done = true ∧
      ∀ c, (chunkSignerCall dummyHmac dummySha ⟨0, 8192, ⟨[], []⟩, []⟩ fin c).1 =
        .error (str "Payload is complete, no more calls are needed")) :=
  ⟨by decide, by decide,
    (C1_chunk_signer_call_contract dummyHmac dummySha ⟨0, 8192, ⟨[], []⟩, []⟩
      (by decide) (fun k m => by simp [dummyHmac]) [] [none] (by decide)).2.2⟩

theorem take_two_CRLF_append (x : Str) : (CRLF ++ x).take 2 = CRLF := rfl

theorem take_two_ne_CRLF_of_hex_head (d : Char) (rest : Str)
    (hhex : isHexLower d = true) : (d :: rest).take 2 ≠ CRLF := by
  intro h
  have h2 := congrArg (fun l : Str => l.headD ' ') h
  have hd : d = '\r' := by simpa [CRLF] using h2
  rw [hd] at hhex
  exact absurd hhex (by decide)

theorem conformingHeader_head (ctx : ChunkCtx) (i : Nat) :
    ∃ d rest, conformingHeader ctx i = d :: rest ∧ isHexLower d = true := by
  rw [conformingHeader]
  by_cases h1 : i < chunksOf ctx
  · rw [if_pos h1]
    exact header_head_hex _ ⟨ctx.chunkLength, rfl⟩
  · rw [if_neg h1]
    by_cases h2 : i = chunksOf ctx ∧ lastLengthOf ctx ≠ 0
    · rw [if_pos h2]
      exact header_head_hex _ ⟨lastLengthOf ctx, rfl⟩
    · rw [if_neg h2]
      exact ⟨'0', str ";chunk-signature=", rfl, by decide⟩

/-- C2: the framing emitted by the chunk signer.  First conjunct: every
accepted call emits leading-CRLF (omitted exactly when nothing was
signed yet, i.e. on the very first chunk), then the frame header
hex-length;chunk-signature=, then a 64-character lowercase-hex
signature and CRLF, with one extra trailing CRLF exactly on the
terminal zero-length call.  Second conjunct: in a conforming run the
i-th emitted string starts with CRLF exactly when i is not the first
call.  Third conjunct: for bodyLength 0 and chunkLength 8192 the chain
requires exactly one call, whose entire output is
0;chunk-signature=<64-hex>CRLF CRLF. -/
theorem C2_chunk_framing (hmac : HmacFn) (sha : ShaFn)
    (ctx : ChunkCtx) (hch : CHUNK_MIN ≤ ctx.chunkLength)
    (hhm : ∀ k m, (hmac k m).length = 32) (seed : Str)
    (cs : List (Option Chunk))
    (hcs : cs.map chunkLen = conformingLens ctx.bodyLength ctx.chunkLength) :
    (∀ st c, st.done = false → chunkLen c = expectedLen ctx st →
      ∃ s : Str, s.length = 64 ∧ (∀ x ∈ s, isHexLower x = true) ∧
        (chunkSignerCall hmac sha ctx st c).1 = .ok
          ((if st.dataCount = 0 then [] else CRLF) ++ headerAt ctx st ++ s ++
            CRLF ++ (if expectedLen ctx st = 0 then CRLF else []))) ∧
    (∃ outs fin,
      runChunkSignerOk hmac sha ctx (initChunkState seed) cs = some (outs, fin) ∧
      ∀ i (hi : i < outs.length),
        ((outs.get ⟨i, hi⟩).take 2 = CRLF ↔ i ≠ 0)) ∧
    (conformingLens 0 8192 = [0] ∧
      ∀ signing timestamp seed2 (c : Option Chunk), chunkLen c = 0 →
        ∃ s fin, s.length = 64 ∧ (∀ x ∈ s, isHexLower x = true) ∧
          runChunkSignerOk hmac sha ⟨0, 8192, signing, timestamp⟩
            (initChunkState seed2) [c] =
            some ([finalHeader ++ s ++ CRLF ++ CRLF], fin) ∧ fin.done = true) := by
  have hch0 : 0 < ctx.chunkLength := by
    have h8 : (0 : Nat) < CHUNK_MIN := by decide
    omega
  refine ⟨?_, ?_, by decide, ?_⟩
  · intro st c hdone hlen
    refine ⟨signS3Chunk hmac sha st.signature ctx.signing ctx.timestamp c,
      signS3Chunk_length hmac sha hhm _ _ _ _,
      signS3Chunk_hex hmac sha _ _ _ _, ?_⟩
    rw [chunkSignerCall_ok_eq hmac sha ctx st c hdone hlen]
  · obtain ⟨outs, fin, hrun, _, _, _, hshape, _⟩ :=
      conforming_run_master hmac sha ctx hhm hch0 seed cs hcs
    refine ⟨outs, fin, hrun, ?_⟩
    intro i hi
    obtain ⟨s, _, _, hval⟩ := hshape i hi
    rw [hval]
    by_cases hi0 : i = 0
    · subst hi0
      simp only [if_pos rfl, List.nil_append]
      obtain ⟨d, rest, hhd, hhex⟩ := conformingHeader_head ctx 0
      rw [hhd]
      constructor
      · intro hcontra
        exact absurd hcontra (take_two_ne_CRLF_of_hex_head d _ hhex)
      · intro hcontra
        exact absurd rfl hcontra
    · rw [if_neg hi0, List.append_assoc, List.append_assoc, List.append_assoc]
      simp only [take_two_CRLF_append]
      exact ⟨fun _ => hi0, fun _ => trivial⟩
  · intro signing timestamp seed2 c hc
    have hexp : expectedLen ⟨0, 8192, signing, timestamp⟩
        ⟨seed2, 0, false⟩ = 0 := rfl
    have hhd : headerAt ⟨0, 8192, signing, timestamp⟩
        ⟨seed2, 0, false⟩ = finalHeader := rfl
    have hstep := chunkSignerCall_ok_eq hmac sha ⟨0, 8192, signing, timestamp⟩
      ⟨seed2, 0, false⟩ c rfl (by rw [hc, hexp])
    rw [hexp, hhd] at hstep
    simp only [eq_self_iff_true, if_true, beq_self_eq_true, List.nil_append,
      Nat.add_zero] at hstep
    refine ⟨signS3Chunk hmac sha seed2 signing timestamp c,
      ⟨signS3Chunk hmac sha seed2 signing timestamp c, 0, true⟩,
      signS3Chunk_length hmac sha hhm _ _ _ _,
      signS3Chunk_hex hmac sha _ _ _ _, ?_, rfl⟩
    simp only [initChunkState, runChunkSignerOk, hstep]

/-- C2 witness: the framing facts at a concrete context and the
conforming single-call sequence for an empty body. -/
theorem C2_witness :
    CHUNK_MIN ≤ 8192 ∧
    ([(none : Option Chunk)].map chunkLen = conformingLens 0 8192) ∧
    (conformingLens 0 8192 = [0] ∧
      ∀ signing timestamp seed2 (c : Option Chunk), chunkLen c = 0 →
        ∃ s fin, s.length = 64 ∧ (∀ x ∈ s, isHexLower x = true) ∧
          runChunkSignerOk dummyHmac dummySha ⟨0, 8192, signing, timestamp⟩
            (initChunkState seed2) [c] =
            some ([finalHeader ++ s ++ CRLF ++ CRLF], fin) ∧ fin.done = true) :=
  ⟨by decide, by decide,
    (C2_chunk_framing dummyHmac dummySha ⟨0, 8192, ⟨[], []⟩, []⟩
      (by decide) (fun k m => by simp [dummyHmac]) [] [none] (by decide)).2.2⟩

/-- C3: the content length declared by `signS3ChunkedRequest` before any
chunk is signed.  First conjunct: the declared total equals bodyLength
plus the framing overhead of every full chunk, of the short final chunk
when present, and of the terminal marker, each overhead being the frame
header length plus 64 signature characters plus 4 CRLF characters.
Second and third conjuncts (concrete scenario B): for
bodyLength = 8192*2+100 and chunkLength = 8192 the conforming call
sequence is [8192, 8192, 100, 0] and the declared total is 16835 =
16484 + 2*(21+68) + (19+68) + (18+68).  Fourth conjunct: for every
conforming run, bodyLength plus the number of characters actually
emitted by the signer equals the declared total. -/
theorem C3_chunked_content_length (hmac : HmacFn) (sha : ShaFn)
    (ctx : ChunkCtx) (hch : CHUNK_MIN ≤ ctx.chunkLength)
    (hhm : ∀ k m, (hmac k m).length = 32) (seed : Str) :
    (chunkedTotalLength ctx.bodyLength ctx.chunkLength =
      ctx.bodyLength + ((chunkHeaderOf ctx).length + 64 + 4) * chunksOf ctx +
      (if lastLengthOf ctx ≠ 0 then (lastHeaderOf ctx).length + 64 + 4 else 0) +
      (finalHeader.length + 64 + 4)) ∧
    conformingLens (8192 * 2 + 100) 8192 = [8192, 8192, 100, 0] ∧
    chunkedTotalLength (8192 * 2 + 100) 8192 = 16835 ∧
    (∀ cs : List (Option Chunk),
      cs.map chunkLen = conformingLens ctx.bodyLength ctx.chunkLength →
      ∃ outs fin,
        runChunkSignerOk hmac sha ctx (initChunkState seed) cs =
          some (outs, fin) ∧
        ctx.bodyLength + (outs.map List.length).sum =
          chunkedTotalLength ctx.bodyLength ctx.chunkLength) := by
  have hch0 : 0 < ctx.chunkLength := by
    have h8 : (0 : Nat) < CHUNK_MIN := by decide
    omega
  refine ⟨chunkedTotalLength_eq ctx, by decide, by decide, ?_⟩
  intro cs hcs
  obtain ⟨outs, fin, hrun, _, _, _, _, hsum⟩ :=
    conforming_run_master hmac sha ctx hhm hch0 seed cs hcs
  exact ⟨outs, fin, hrun, hsum⟩

/-- C3 witness: the content-length facts at the scenario-B context and
a conforming call sequence. -/
theorem C3_witness :
    CHUNK_MIN ≤ 8192 ∧
    (chunkedTotalLength (8192 * 2 + 100) 8192 = 16835) ∧
    (∃ outs fin,
      runChunkSignerOk dummyHmac dummySha ⟨8192 * 2 + 100, 8192, ⟨[], []⟩, []⟩
        (initChunkState [])
        [some (.desc (str "a") 8192), some (.desc (str "b") 8192),
         some (.desc (str "c") 100), none] = some (outs, fin) ∧
      8192 * 2 + 100 + (outs.map List.length).sum =
        chunkedTotalLength (8192 * 2 + 100) 8192) :=
  ⟨by decide, by decide,
    (C3_chunked_content_length dummyHmac dummySha
      ⟨8192 * 2 + 100, 8192, ⟨[], []⟩, []⟩ (by decide)
      (fun k m => by simp [dummyHmac]) []).2.2.2
      [some (.desc (str "a") 8192), some (.desc (str "b") 8192),
       some (.desc (str "c") 100), none] (by decide)⟩

/-! ## http.js: request signing (signRequestRaw) -/

/-- A header value in an `OutgoingHttpHeaders` object: a string, an
array of strings, or a number. -/
inductive HVal where
  | vstr (s : Str)
  | varr (vs : List Str)
  | vnum (n : Nat)
deriving DecidableEq, Repr

/-- An `OutgoingHttpHeaders` object: keys in insertion order. -/
abbrev Headers := List (Str × HVal)

/-- `String.prototype.toLowerCase` (ASCII fragment). -/
def jsToLower (s : Str) : Str := s.map Char.toLower

/-- `String.prototype.toUpperCase` (ASCII fragment). -/
def jsToUpper (s : Str) : Str := s.map Char.toUpper

/-- `Array.prototype.join(',')`. -/
def joinComma : List Str → Str
  | [] => []
  | [x] => x
  | x :: xs => x ++ ',' :: joinComma xs

/-- `Array.prototype.join(';')`. -/
def joinSemi : List Str → Str
  | [] => []
  | [x] => x
  | x :: xs => x ++ ';' :: joinSemi xs

/-- `normalizeValue` (util/request.js, line 8): arrays are joined with
',', other values are coerced to string. -/
def normalizeValue : HVal → Str
  | .varr vs => joinComma vs
  | .vstr s => s
  | .vnum n => natToDec n

/-- `getHeader` (util/request.js, lines 17-27): find a header by
case-insensitive name; return the stored key and normalized value, or
the lowercased name and no value. -/
def getHeader (headers : Headers) (name : Str) : Str × Option Str :=
  let n := jsToLower name
  match headers.find? (fun p => jsToLower p.1 = n) with
  | some p => (p.1, some (normalizeValue p.2))
  | none => (n, none)

/-- `.replace(/\s+/g, ' ')`: each maximal run of whitespace becomes one
space. -/
def collapseWhiteCore : Str → Bool → Str
  | [], _ => []
  | c :: rest, inRun =>
    if jsWhite c then (if inRun then [] else [' ']) ++ collapseWhiteCore rest true
    else c :: collapseWhiteCore rest false

/-- The `trim` helper of `getCanonicalHeaders` (http.js, line 80):
`x.trim().replace(/\s+/g, ' ')`. -/
def headerTrim (x : Str) : Str := collapseWhiteCore (trim x) false

/-- Normalization of one header value in `getCanonicalHeaders`
(http.js, lines 88-89): arrays are trimmed elementwise and joined with
',', other values are coerced to string and trimmed. -/
def canonValue : HVal → Str
  | .varr vs => joinComma (vs.map headerTrim)
  | .vstr s => headerTrim s
  | .vnum n => headerTrim (natToDec n)

/-- The loop of `getCanonicalHeaders` (http.js, lines 82-90): build the
`normalized` object in insertion order, throwing on a duplicate
lowercased name. -/
def buildNormalized : Headers → List (Str × Str) → Except Str (List (Str × Str))
  | [], acc => .ok acc
  | p :: rest, acc =>
    let name := jsToLower p.1
    if (acc.map Prod.fst).contains name then
      .error (str "Duplicate headers found: '" ++ name ++ str "'")
    else buildNormalized rest (acc ++ [(name, canonValue p.2)])

/-- Property read `normalized[k]` on a string-valued object. -/
def objGet (m : List (Str × Str)) (k : Str) : Str :=
  match m.find? (fun p => p.1 = k) with
  | some p => p.2
  | none => []

/-- `getCanonicalHeaders` (http.js, lines 79-94). -/
def getCanonicalHeaders (headers : Headers) : Except Str (Str × Str) :=
  match buildNormalized headers [] with
  | .error e => .error e
  | .ok normalized =>
    let signedHeaders := jsSortStrings (normalized.map Prod.fst)
    let canonicalHeaders :=
      (signedHeaders.map (fun k => k ++ ':' :: (objGet normalized k ++ ['\n']))).flatten
    .ok (canonicalHeaders, joinSemi signedHeaders)

/-- The options record passed through `signRequest` and
`signRequestRaw`: `SignHTTPOptions & CanonicalOptions & SignOptions`. -/
structure SignHTTPOpts where
  set : Bool
  query : Bool
  setContentHash : Bool
  dontNormalize : Bool
  onlyEncodeOnce : Bool
  getSigningData : Option (Str → Str → Str → Str → SigningData)

/-- The normalization loop of `getCanonicalURI` (http.js, lines 30-43):
`..` pops a segment, empty and `.` segments are skipped, and
`endingSlash` records whether the last segment was skipped or popped. -/
def canonURIFold (parts : List Str) : List Str × Bool :=
  parts.foldl (fun st part =>
    if part = str ".." then (st.1.dropLast, true)
    else if part = [] ∨ part = str "." then (st.1, true)
    else (st.1 ++ [part], false)) ([], true)

/-- `getCanonicalURI` (http.js, lines 28-49), with `querystring.unescape`
passed in as `unesc`. -/
def getCanonicalURI (unesc : Str → Str) (pathName : Str) (o : SignHTTPOpts) : Str :=
  let parts0 := (pathName.splitOn '/').map unesc
  let parts1 :=
    if o.dontNormalize then parts0
    else
      let nf := canonURIFold parts0
      [[]] ++ nf.1 ++ (if nf.2 then [[]] else [])
  let parts2 := parts1.map escape
  let parts3 := if o.onlyEncodeOnce then parts2 else parts2.map escape
  joinSlash parts3

/-- `getCanonical` (http.js, lines 123-133). -/
def getCanonical (unesc : Str → Str) (sha : ShaFn) (method pathname : Str)
    (query : QueryParams) (cheaders : Str × Str) (body : Option Body)
    (o : SignHTTPOpts) : Str :=
  joinNL [trim (jsToUpper method), getCanonicalURI unesc pathname o,
    getCanonicalQuery query, cheaders.1, cheaders.2, hashBody sha body]

/-- A `Credentials` object (core.d.ts). -/
structure Credentials where
  accessKey : Str
  secretKey : Str
  regionName : Str
  serviceName : Str
deriving Repr

/-- `getSigning` (core.js, lines 418-423): derive signing data (through
`options.getSigningData` when supplied) and the credential string
accessKey/scope. -/
def getSigning (hmac : HmacFn) (dateStamp : Str) (cr : Credentials)
    (o : SignHTTPOpts) : SigningData × Str :=
  let derive :=
    match o.getSigningData with
    | some f => f
    | none => getSigningData hmac
  let signing := derive dateStamp cr.secretKey cr.regionName cr.serviceName
  (signing, cr.accessKey ++ '/' :: signing.scope)

/-- `URLSearchParams.get`: first value of the key, if any. -/
def uspGet (q : QueryParams) (k : Str) : Option Str :=
  (q.find? (fun p => p.1 = k)).map Prod.snd

/-- `URLSearchParams.delete`: remove every pair with the key. -/
def uspDelete (q : QueryParams) (k : Str) : QueryParams :=
  q.filter (fun p => p.1 ≠ k)

/-- `URLSearchParams.set`: replace the first pair with the key and drop
the rest, or append when absent. -/
def uspSet : QueryParams → Str → Str → QueryParams
  | [], k, v => [(k, v)]
  | p :: rest, k, v =>
    if p.1 = k then (k, v) :: uspDelete rest k
    else p :: uspSet rest k v

/-- JavaScript object property assignment `m[k] = v`: update in place
when the key exists, append otherwise. -/
def objSet : List (Str × Str) → Str → Str → List (Str × Str)
  | [], k, v => [(k, v)]
  | p :: rest, k, v => if p.1 = k then (k, v) :: rest else p :: objSet rest k v

/-- Object property assignment on a headers object. -/
def objSetH : Headers → Str → HVal → Headers
  | [], k, v => [(k, v)]
  | p :: rest, k, v => if p.1 = k then (k, v) :: rest else p :: objSetH rest k v

/-- `delete headers[k]`. -/
def objDeleteH (h : Headers) (k : Str) : Headers := h.filter (fun p => p.1 ≠ k)

/-- The spread `{ ...headers, ...result }` (http.js, line 232): result
entries override existing keys in place or are appended in order. -/
def spreadResult (headers : Headers) (result : List (Str × Str)) : Headers :=
  result.foldl (fun h p => objSetH h p.1 (.vstr p.2)) headers

/-- `signRequestRaw` (http.js, lines 210-253).  `now` stands for the
value `formatTimestamp()` would produce at the time of the call; it is
read only when no explicit timestamp is present. -/
def signRequestRaw (hmac : HmacFn) (sha : ShaFn) (unesc : Str → Str) (now : Str)
    (credentials : Credentials) (method pathname : Str) (query : QueryParams)
    (headers : Headers) (body : Option Body) (o : SignHTTPOpts) :
    Except Str (List (Str × Str)) :=
  let isQuery := o.query
  let parameter : Str :=
    if isQuery then str "X-Amz-Signature"
    else (getHeader headers (str "authorization")).1
  let tsRaw : Option Str :=
    if isQuery then uspGet query (str "X-Amz-Date")
    else (getHeader headers (str "x-amz-date")).2
  let tr : Str × List (Str × Str) :=
    match tsRaw with
    | some t =>
      if t = [] then
        (now, [(if isQuery then str "X-Amz-Date" else str "x-amz-date", now)])
      else (t, [])
    | none =>
      (now, [(if isQuery then str "X-Amz-Date" else str "x-amz-date", now)])
  let timestamp := tr.1
  let hash := hashBody sha body
  let result1 :=
    if !isQuery && o.setContentHash then
      objSet tr.2 (getHeader headers (str "x-amz-content-sha256")).1 hash
    else tr.2
  let sc := getSigning hmac timestamp credentials o
  let headers1 :=
    if !isQuery then objDeleteH (spreadResult headers result1) parameter
    else headers
  match getCanonicalHeaders headers1 with
  | .error e => .error e
  | .ok cheaders =>
    let result2 :=
      if isQuery then
        objSet (objSet (objSet result1 (str "X-Amz-Algorithm") MAIN_ALGORITHM)
          (str "X-Amz-Credential") sc.2) (str "X-Amz-SignedHeaders") cheaders.2
      else result1
    let query1 :=
      if isQuery then
        uspDelete (result2.foldl (fun q p => uspSet q p.1 p.2) query) parameter
      else query
    let creq := getCanonical unesc sha method pathname query1 cheaders
      (some (.hashed hash)) o
    let digest := hexEncode (sha (utf8Str creq))
    let signature := signDigest hmac MAIN_ALGORITHM digest timestamp sc.1
    .ok (objSet result2 parameter
      (if isQuery then hexEncode signature
       else buildAuthorization ⟨MAIN_ALGORITHM, sc.2, cheaders.2, signature⟩))

/-- C8: with an explicit, non-empty X-Amz-Date timestamp present (header
or query parameter according to the signing mode), `signRequestRaw` is a
deterministic function of its inputs: the ambient clock value `now` does
not influence the result, so two invocations with identical credentials,
method, path, query, headers and body return identical results, in
particular byte-identical Authorization header values. -/
theorem C8_signRequestRaw_deterministic (hmac : HmacFn) (sha : ShaFn)
    (unesc : Str → Str) (credentials : Credentials) (method pathname : Str)
    (query : QueryParams) (headers : Headers) (body : Option Body)
    (o : SignHTTPOpts)
    (ht : ∃ t, (if o.query then uspGet query (str "X-Amz-Date")
      else (getHeader headers (str "x-amz-date")).2) = some t ∧ t ≠ []) :
    ∀ now1 now2,
      signRequestRaw hmac sha unesc now1 credentials method pathname query
        headers body o =
      signRequestRaw hmac sha unesc now2 credentials method pathname query
        headers body o := by
  obtain ⟨t, hsome, hne⟩ := ht
  intro now1 now2
  simp only [signRequestRaw, hsome, if_neg hne]

/-- C8 witness: two invocations with different clock values but an
explicit X-Amz-Date header agree. -/
theorem C8_witness :
    (∃ t, (if (SignHTTPOpts.mk false false false false false none).query then
        uspGet [] (str "X-Amz-Date")
      else (getHeader [(str "X-Amz-Date", HVal.vstr (str "20200101T000000Z")),
        (str "Host", HVal.vstr (str "example.com"))] (str "x-amz-date")).2) =
        some t ∧ t ≠ []) ∧
    signRequestRaw dummyHmac dummySha id (str "A")
      ⟨str "AKID", str "SECRET", str "us-east-1", str "s3"⟩ (str "GET")
      (str "/") []
      [(str "X-Amz-Date", HVal.vstr (str "20200101T000000Z")),
       (str "Host", HVal.vstr (str "example.com"))] none
      (SignHTTPOpts.mk false false false false false none) =
    signRequestRaw dummyHmac dummySha id (str "B")
      ⟨str "AKID", str "SECRET", str "us-east-1", str "s3"⟩ (str "GET")
      (str "/") []
      [(str "X-Amz-Date", HVal.vstr (str "20200101T000000Z")),
       (str "Host", HVal.vstr (str "example.com"))] none
      (SignHTTPOpts.mk false false false false false none) :=
  ⟨⟨str "20200101T000000Z", rfl, by decide⟩,
    C8_signRequestRaw_deterministic dummyHmac dummySha id
      ⟨str "AKID", str "SECRET", str "us-east-1", str "s3"⟩ (str "GET")
      (str "/") []
      [(str "X-Amz-Date", HVal.vstr (str "20200101T000000Z")),
       (str "Host", HVal.vstr (str "example.com"))] none
      (SignHTTPOpts.mk false false false false false none)
      ⟨str "20200101T000000Z", rfl, by decide⟩ (str "A") (str "B")⟩

/-! ## http.js signRequest and s3.js signS3Request -/

/-- JavaScript falsiness of a possibly-absent string: absent or empty. -/
def falsyS : Option Str → Bool
  | none => true
  | some s => s.isEmpty

/-- The `url` object of a `SignedRequest` (http.d.ts): host, pathname
and searchParams, each optional. -/
structure URLObj where
  host : Option Str
  pathname : Option Str
  searchParams : Option QueryParams
deriving DecidableEq, Repr

/-- The `url` field of a `SignedRequest`: a string or an object. -/
inductive ReqURL where
  | urlStr (s : Str)
  | urlObj (u : URLObj)
deriving DecidableEq, Repr

/-- A `SignedRequest` object (http.d.ts). -/
structure SignedReq where
  method : Option Str
  url : ReqURL
  headers : Option Headers
  body : Option Body
deriving DecidableEq, Repr

/-- A `RelaxedCredentials` object (core.d.ts): region and service may be
absent. -/
structure RelaxedCredentials where
  accessKey : Str
  secretKey : Str
  regionName : Option Str
  serviceName : Option Str
deriving Repr

/-- `x || d` on an optional string: the default replaces an absent or
empty value. -/
def jsOr (x : Option Str) (d : Str) : Str :=
  match x with
  | some s => if s = [] then d else s
  | none => d

/-- The `url` value the caller sees after `signRequest`: a string url was
parsed into a fresh object, so only an object url shows mutations. -/
def urlVisible (orig : ReqURL) (u : URLObj) : ReqURL :=
  match orig with
  | .urlStr s => .urlStr s
  | .urlObj _ => .urlObj u

/-- Body of `signRequest` (http.js, lines 301-324) after host/credential
detection: populate the host header if needed, call `signRequestRaw`,
and (`set` only) write the parameters back into the request.  Returns
the result together with the caller-visible request.  Credentials fields
are passed to `signRequestRaw` with absent values as empty strings. -/
def signRequestCore (hmac : HmacFn) (sha : ShaFn) (unesc : Str → Str)
    (toStr : URLObj → Str) (now : Str) (creds1 : RelaxedCredentials)
    (request : SignedReq) (url1 : URLObj) (o : SignHTTPOpts) :
    Except Str (List (Str × Str)) × SignedReq :=
  let hdrs0 := request.headers.getD []
  let headers1 :=
    if falsyS (getHeader hdrs0 (str "host")).2 then
      objSetH hdrs0 (str "host") (.vstr (url1.host.getD []))
    else hdrs0
  let query0 := url1.searchParams.getD []
  let rawRes := signRequestRaw hmac sha unesc now
    ⟨creds1.accessKey, creds1.secretKey, creds1.regionName.getD [],
     creds1.serviceName.getD []⟩
    (jsOr request.method (str "GET")) (jsOr url1.pathname (str "/"))
    query0 headers1 request.body o
  let request2 :=
    if o.set then
      match rawRes with
      | .error _ => { request with url := urlVisible request.url url1 }
      | .ok res =>
        if o.query then
          let q2 := res.foldl (fun q p => uspSet q p.1 p.2) query0
          let url3 := { url1 with searchParams := some q2 }
          { request with
            url := (match request.url with
              | .urlStr _ => .urlStr (toStr url3)
              | .urlObj _ => .urlObj url3) }
        else
          { request with
            url := urlVisible request.url url1,
            headers := (some (res.foldl (fun h p => objSetH h p.1 (.vstr p.2))
              (request.headers.getD []))) }
    else { request with url := urlVisible request.url url1 }
  (rawRes, request2)

/-- `signRequest` (http.js, lines 286-325).  `parseU` stands for
`new URL()`, `toStr` for `url.toString()`, `fmtHost`/`prsHost`/`dreg`
for `formatHost`/`parseHost`/`DEFAULT_REGION` of util/endpoint.js, and
`now` for the `formatTimestamp()` clock value. -/
def signRequest (hmac : HmacFn) (sha : ShaFn) (unesc : Str → Str)
    (parseU : Str → URLObj) (toStr : URLObj → Str)
    (fmtHost : Option Str → Option Str → Str)
    (prsHost : Str → Option Str × Option Str) (dreg : Str) (now : Str)
    (credentials : RelaxedCredentials) (request : SignedReq)
    (o : SignHTTPOpts) : Except Str (List (Str × Str)) × SignedReq :=
  let url0 : URLObj :=
    match request.url with
    | .urlStr s => parseU s
    | .urlObj u => u
  if falsyS url0.host then
    if falsyS credentials.serviceName then
      (.error (str "Neither url.host nor serviceName was provided"), request)
    else
      signRequestCore hmac sha unesc toStr now
        { credentials with
          regionName := (match credentials.regionName with
            | some r => some r
            | none => some dreg) }
        request
        { url0 with host := some (fmtHost credentials.serviceName credentials.regionName) }
        o
  else if falsyS credentials.serviceName ∨ falsyS credentials.regionName then
    let ph := prsHost (url0.host.getD [])
    signRequestCore hmac sha unesc toStr now
      { credentials with
        serviceName := (match credentials.serviceName with
          | some s => some s
          | none => ph.1),
        regionName := (match credentials.regionName with
          | some r => some r
          | none => ph.2) }
      request url0 o
  else signRequestCore hmac sha unesc toStr now credentials request url0 o

/-- `EXPIRES_MAX` (s3.js, line 24). -/
def EXPIRES_MAX : Nat := 604800

/-- `PAYLOAD_UNSIGNED` (s3.js, line 32). -/
def PAYLOAD_UNSIGNED : Str := str "UNSIGNED-PAYLOAD"

/-- The spread `{ ...S3_OPTIONS, ...options }` (s3.js, line 96),
modelled over the boolean option fields: the three S3 defaults are
applied (callers explicitly passing `false` for one of them are outside
the modelled option space). -/
def applyS3Options (o : SignHTTPOpts) : SignHTTPOpts :=
  { o with dontNormalize := true, onlyEncodeOnce := true, setContentHash := true }

/-- A `SignedS3Request` object (s3.d.ts): a `SignedRequest` plus the
`unsigned` flag. -/
structure SignedS3Req where
  method : Option Str
  url : ReqURL
  headers : Option Headers
  body : Option Body
  unsigned : Option Bool
deriving DecidableEq, Repr

/-- Tail of `signS3Request` (s3.js, lines 96-103): merge the extra
parameters with the `signRequest` result and reconstruct the
caller-visible request (string url replacement for `set` query signing,
and the unconditional copy-back of a missing `url.host`).  On a thrown
error the mutations already performed remain visible. -/
def s3Finish (toStr : URLObj → Str) (rs : SignedS3Req) (o : SignHTTPOpts)
    (uws al : Bool) (url0 urlAfter : URLObj) (extra : List (Str × Str))
    (e : Except Str (List (Str × Str))) :
    Except Str (List (Str × Str)) × SignedS3Req :=
  match e with
  | .error msg =>
    (.error msg,
      { rs with
        url := (if uws then rs.url else .urlObj (if al then urlAfter else url0)),
        headers := (if o.set && !o.query then some (rs.headers.getD [])
          else rs.headers) })
  | .ok res =>
    let result := res.foldl (fun m2 p => objSet m2 p.1 p.2) extra
    let urlForCaller : ReqURL :=
      if uws then (if o.set && o.query then .urlStr (toStr urlAfter) else rs.url)
      else
        let co := if al then urlAfter else url0
        .urlObj (if falsyS co.host then { co with host := urlAfter.host } else co)
    let headers1 :=
      if o.set && !o.query then
        some (res.foldl (fun h p => objSetH h p.1 (.vstr p.2)) (rs.headers.getD []))
      else rs.headers
    (.ok result, { rs with url := urlForCaller, headers := headers1 })

/-- `signS3Request` (s3.js, lines 74-104).  The S3 defaults are applied
to the options, the payload may be left unsigned, a missing
`X-Amz-Expires` is added for query signing (via `patchURL`, which works
on a copy exactly when `set` is disabled and the url was an object), the
service name defaults to `s3` when the host is missing, and `signRequest`
does the signing.  `al` tracks whether the url object handed to
`signRequest` is the caller's own object. -/
def signS3Request (hmac : HmacFn) (sha : ShaFn) (unesc : Str → Str)
    (parseU : Str → URLObj) (toStr : URLObj → Str)
    (fmtHost : Option Str → Option Str → Str)
    (prsHost : Str → Option Str × Option Str) (dreg : Str) (now : Str)
    (credentials : RelaxedCredentials) (rs : SignedS3Req)
    (o : SignHTTPOpts) : Except Str (List (Str × Str)) × SignedS3Req :=
  let isQuery := o.query
  let unsigned := rs.unsigned.getD isQuery
  let urlWasString : Bool :=
    match rs.url with
    | .urlStr _ => true
    | .urlObj _ => false
  let url0 : URLObj :=
    match rs.url with
    | .urlStr s => parseU s
    | .urlObj u => u
  let hasExpires : Bool :=
    match url0.searchParams with
    | some q => (uspGet q (str "X-Amz-Expires")).isSome
    | none => false
  let expiresBranch := isQuery && !hasExpires
  let extra : List (Str × Str) :=
    if expiresBranch then [(str "X-Amz-Expires", natToDec EXPIRES_MAX)] else []
  let url1 : URLObj :=
    if expiresBranch then
      { url0 with searchParams := (some
          (extra.foldl (fun q p => uspSet q p.1 p.2) (url0.searchParams.getD []))) }
    else url0
  let aliased : Bool := !(expiresBranch && !(o.set || urlWasString))
  let body1 := if unsigned then some (Body.hashed PAYLOAD_UNSIGNED) else rs.body
  let creds1 :=
    if falsyS url1.host then
      { credentials with
        serviceName := (match credentials.serviceName with
          | some s => some s
          | none => some (str "s3")) }
    else credentials
  let req2 : SignedReq := ⟨rs.method, .urlObj url1, rs.headers, body1⟩
  let srOut := signRequest hmac sha unesc parseU toStr fmtHost prsHost dreg now
    creds1 req2 (applyS3Options o)
  let urlAfter : URLObj :=
    match srOut.2.url with
    | .urlObj u2 => u2
    | .urlStr _ => url1
  s3Finish toStr rs o urlWasString aliased url0 urlAfter extra srOut.1

/-- The amended mutation contract: the second url equals the first except
that a missing (absent or empty) host may have been filled in. -/
def hostOnlyChange : ReqURL → ReqURL → Prop
  | .urlStr s, .urlStr s2 => s2 = s
  | .urlObj u, .urlObj u2 =>
    u2.pathname = u.pathname ∧ u2.searchParams = u.searchParams ∧
    (falsyS u.host = false → u2.host = u.host)
  | _, _ => False

theorem signRequestCore_set_false (hmac : HmacFn) (sha : ShaFn)
    (unesc : Str → Str) (toStr : URLObj → Str) (now : Str)
    (creds1 : RelaxedCredentials) (request : SignedReq) (url1 : URLObj)
    (o : SignHTTPOpts) (hset : o.set = false) :
    (signRequestCore hmac sha unesc toStr now creds1 request url1 o).2 =
      { request with url := urlVisible request.url url1 } := by
  simp only [signRequestCore, hset, Bool.false_eq_true, if_false]

theorem signRequest_set_false_shape (hmac : HmacFn) (sha : ShaFn)
    (unesc : Str → Str) (parseU : Str → URLObj) (toStr : URLObj → Str)
    (fmtHost : Option Str → Option Str → Str)
    (prsHost : Str → Option Str × Option Str) (dreg now : Str)
    (cr : RelaxedCredentials) (rq : SignedReq) (o : SignHTTPOpts)
    (hset : o.set = false) :
    ∃ u2, (signRequest hmac sha unesc parseU toStr fmtHost prsHost dreg now
        cr rq o).2 = { rq with url := urlVisible rq.url u2 } ∧
      ∀ u, rq.url = .urlObj u →
        u2.pathname = u.pathname ∧ u2.searchParams = u.searchParams ∧
        (falsyS u.host = false → u2 = u) := by
  obtain ⟨m, u0, hs, b⟩ := rq
  cases u0 with
  | urlStr s =>
    refine ⟨parseU s, ?_, fun u h => ReqURL.noConfusion h⟩
    simp only [signRequest]
    split
    · split
      · rfl
      · exact (signRequestCore_set_false hmac sha unesc toStr now _ _ _ o hset).trans rfl
    · split
      · exact (signRequestCore_set_false hmac sha unesc toStr now _ _ _ o hset).trans rfl
      · exact (signRequestCore_set_false hmac sha unesc toStr now _ _ _ o hset).trans rfl
  | urlObj u =>
    by_cases h1 : falsyS u.host = true
    · by_cases h2 : falsyS cr.serviceName = true
      · refine ⟨u, ?_, fun u3 h => ?_⟩
        · simp only [signRequest, h1, h2, if_true, urlVisible]
        · injection h with h
          subst h
          exact ⟨rfl, rfl, fun hf => absurd h1 (by rw [hf]; exact Bool.false_ne_true)⟩
      · refine ⟨{ u with host := some (fmtHost cr.serviceName cr.regionName) },
          ?_, fun u3 h => ?_⟩
        · simp only [signRequest, h1, if_true]
          split
          · rename_i h3
            exact absurd h3 h2
          · exact (signRequestCore_set_false hmac sha unesc toStr now _ _ _ o hset).trans rfl
        · injection h with h
          subst h
          exact ⟨rfl, rfl, fun hf => absurd h1 (by rw [hf]; exact Bool.false_ne_true)⟩
    · refine ⟨u, ?_, fun u3 h => ?_⟩
      · have h1f : falsyS u.host = false := by
          cases hx : falsyS u.host
          · rfl
          · exact absurd hx h1
        simp only [signRequest, h1f, Bool.false_eq_true, if_false]
        split
        · exact (signRequestCore_set_false hmac sha unesc toStr now _ _ _ o hset).trans rfl
        · exact (signRequestCore_set_false hmac sha unesc toStr now _ _ _ o hset).trans rfl
      · injection h with h
        subst h
        exact ⟨rfl, rfl, fun _ => rfl⟩

/-- C6 counterexample: with the `set` option disabled, `signRequest`
still writes a host into the caller's url object when it was missing, so
the request is not left unmodified. -/
theorem C6_counterexample :
    (signRequest dummyHmac dummySha id (fun _ => ⟨none, none, none⟩)
      (fun _ => []) (fun _ _ => str "s3.us-east-1.amazonaws.com")
      (fun _ => (none, none)) (str "us-east-1") (str "20200101T000000Z")
      ⟨str "AKID", str "SECRET", some (str "us-east-1"), some (str "s3")⟩
      ⟨none, .urlObj ⟨none, some (str "/"), none⟩, none, none⟩
      (SignHTTPOpts.mk false false false false false none)).2 ≠
    ⟨none, .urlObj ⟨none, some (str "/"), none⟩, none, none⟩ := by decide

theorem s3Finish_set_false (toStr : URLObj → Str) (rs : SignedS3Req)
    (o : SignHTTPOpts) (uws al : Bool) (url0 urlAfter : URLObj)
    (extra : List (Str × Str)) (e : Except Str (List (Str × Str)))
    (hset : o.set = false) :
    (s3Finish toStr rs o uws al url0 urlAfter extra e).2.method = rs.method ∧
    (s3Finish toStr rs o uws al url0 urlAfter extra e).2.headers = rs.headers ∧
    (s3Finish toStr rs o uws al url0 urlAfter extra e).2.body = rs.body ∧
    (s3Finish toStr rs o uws al url0 urlAfter extra e).2.unsigned = rs.unsigned ∧
    (uws = true →
      (s3Finish toStr rs o uws al url0 urlAfter extra e).2.url = rs.url) := by
  cases e with
  | error msg =>
    refine ⟨rfl, ?_, rfl, rfl, fun huws => ?_⟩
    · show (if o.set && !o.query then some (rs.headers.getD [])
        else rs.headers) = rs.headers
      simp only [hset, Bool.false_and, Bool.false_eq_true, if_false]
    · show (if uws then rs.url
        else ReqURL.urlObj (if al then urlAfter else url0)) = rs.url
      rw [huws, if_pos rfl]
  | ok res =>
    refine ⟨rfl, ?_, rfl, rfl, fun huws => ?_⟩
    · show (if o.set && !o.query then
        some (res.foldl (fun h p => objSetH h p.1 (.vstr p.2)) (rs.headers.getD []))
        else rs.headers) = rs.headers
      simp only [hset, Bool.false_and, Bool.false_eq_true, if_false]
    · show (if uws then (if o.set && o.query then .urlStr (toStr urlAfter) else rs.url)
        else ReqURL.urlObj (let co := if al then urlAfter else url0
          if falsyS co.host then { co with host := urlAfter.host } else co)) = rs.url
      rw [huws, if_pos rfl]
      simp only [hset, Bool.false_and, Bool.false_eq_true, if_false]

theorem s3Finish_hostOnly (toStr : URLObj → Str) (m : Option Str)
    (hs : Option Headers) (b : Option Body) (uns : Option Bool)
    (o : SignHTTPOpts) (u urlAfter : URLObj) (al : Bool)
    (extra : List (Str × Str)) (e : Except Str (List (Str × Str)))
    (hset : o.set = false)
    (hal : al = true → urlAfter.pathname = u.pathname ∧
      urlAfter.searchParams = u.searchParams ∧
      (falsyS u.host = false → urlAfter = u)) :
    hostOnlyChange (.urlObj u)
      (s3Finish toStr ⟨m, .urlObj u, hs, b, uns⟩ o false al u urlAfter extra
        e).2.url := by
  cases e with
  | error msg =>
    cases al with
    | false =>
      show hostOnlyChange (.urlObj u) (ReqURL.urlObj u)
      exact ⟨rfl, rfl, fun _ => rfl⟩
    | true =>
      obtain ⟨hp, hsp, hk⟩ := hal rfl
      show hostOnlyChange (.urlObj u) (ReqURL.urlObj urlAfter)
      exact ⟨hp, hsp, fun hf => by rw [hk hf]⟩
  | ok res =>
    cases al with
    | false =>
      show hostOnlyChange (.urlObj u) (ReqURL.urlObj
        (if falsyS u.host then { u with host := urlAfter.host } else u))
      by_cases hf : falsyS u.host = true
      · rw [if_pos hf]
        exact ⟨rfl, rfl, fun hff => absurd (hf.symm.trans hff) (by decide)⟩
      · rw [if_neg hf]
        exact ⟨rfl, rfl, fun _ => rfl⟩
    | true =>
      obtain ⟨hp, hsp, hk⟩ := hal rfl
      show hostOnlyChange (.urlObj u) (ReqURL.urlObj
        (if falsyS urlAfter.host then { urlAfter with host := urlAfter.host }
         else urlAfter))
      have hsame : (if falsyS urlAfter.host then
          ({ urlAfter with host := urlAfter.host } : URLObj)
          else urlAfter) = urlAfter := by
        split
        · rfl
        · rfl
      rw [hsame]
      exact ⟨hp, hsp, fun hf => by rw [hk hf]⟩

theorem signRequest_obj_after (hmac : HmacFn) (sha : ShaFn) (unesc : Str → Str)
    (parseU : Str → URLObj) (toStr : URLObj → Str)
    (fmtHost : Option Str → Option Str → Str)
    (prsHost : Str → Option Str × Option Str) (dreg now : Str)
    (cr : RelaxedCredentials) (o : SignHTTPOpts) (hset : o.set = false)
    (m : Option Str) (hs : Option Headers) (b : Option Body) (u d : URLObj) :
    (match (signRequest hmac sha unesc parseU toStr fmtHost prsHost dreg now
        cr ⟨m, .urlObj u, hs, b⟩ o).2.url with
      | .urlObj x => x
      | .urlStr _ => d).pathname = u.pathname ∧
    (match (signRequest hmac sha unesc parseU toStr fmtHost prsHost dreg now
        cr ⟨m, .urlObj u, hs, b⟩ o).2.url with
      | .urlObj x => x
      | .urlStr _ => d).searchParams = u.searchParams ∧
    (falsyS u.host = false →
      (match (signRequest hmac sha unesc parseU toStr fmtHost prsHost dreg now
          cr ⟨m, .urlObj u, hs, b⟩ o).2.url with
        | .urlObj x => x
        | .urlStr _ => d) = u) := by
  obtain ⟨u2, h2, hprop⟩ := signRequest_set_false_shape hmac sha unesc parseU
    toStr fmtHost prsHost dreg now cr ⟨m, .urlObj u, hs, b⟩ o hset
  obtain ⟨hp, hsp, hk⟩ := hprop u rfl
  rw [h2]
  exact ⟨hp, hsp, fun hf => hk hf⟩

/-- C6 (amended): with the `set` option disabled, `signRequest` and
`signS3Request` leave the caller's method, headers, body (and `unsigned`
flag) untouched, leave a string url untouched, and change an object url
at most by filling in a missing (absent or empty) host; when the host
was present the url is returned exactly as passed. -/
theorem C6_set_disabled_mutates_only_missing_url_host (hmac : HmacFn)
    (sha : ShaFn) (unesc : Str → Str) (parseU : Str → URLObj)
    (toStr : URLObj → Str) (fmtHost : Option Str → Option Str → Str)
    (prsHost : Str → Option Str × Option Str) (dreg now : Str)
    (credentials : RelaxedCredentials) (rq : SignedReq) (rs : SignedS3Req)
    (o : SignHTTPOpts) (hset : o.set = false) :
    ((signRequest hmac sha unesc parseU toStr fmtHost prsHost dreg now
        credentials rq o).2.method = rq.method ∧
     (signRequest hmac sha unesc parseU toStr fmtHost prsHost dreg now
        credentials rq o).2.headers = rq.headers ∧
     (signRequest hmac sha unesc parseU toStr fmtHost prsHost dreg now
        credentials rq o).2.body = rq.body ∧
     hostOnlyChange rq.url (signRequest hmac sha unesc parseU toStr fmtHost
        prsHost dreg now credentials rq o).2.url) ∧
    ((signS3Request hmac sha unesc parseU toStr fmtHost prsHost dreg now
        credentials rs o).2.method = rs.method ∧
     (signS3Request hmac sha unesc parseU toStr fmtHost prsHost dreg now
        credentials rs o).2.headers = rs.headers ∧
     (signS3Request hmac sha unesc parseU toStr fmtHost prsHost dreg now
        credentials rs o).2.body = rs.body ∧
     (signS3Request hmac sha unesc parseU toStr fmtHost prsHost dreg now
        credentials rs o).2.unsigned = rs.unsigned ∧
     hostOnlyChange rs.url (signS3Request hmac sha unesc parseU toStr fmtHost
        prsHost dreg now credentials rs o).2.url) := by
  have hset2 : (applyS3Options o).set = false := hset
  constructor
  · obtain ⟨m, u0, hs, b⟩ := rq
    obtain ⟨u2, h2, hprop⟩ := signRequest_set_false_shape hmac sha unesc parseU
      toStr fmtHost prsHost dreg now credentials ⟨m, u0, hs, b⟩ o hset
    rw [h2]
    refine ⟨rfl, rfl, rfl, ?_⟩
    cases u0 with
    | urlStr s => exact rfl
    | urlObj u =>
      obtain ⟨hp, hsp, hk⟩ := hprop u rfl
      show u2.pathname = u.pathname ∧ u2.searchParams = u.searchParams ∧
        (falsyS u.host = false → u2.host = u.host)
      exact ⟨hp, hsp, fun hf => by rw [hk hf]⟩
  · obtain ⟨m, u0, hs, b, uns⟩ := rs
    cases u0 with
    | urlStr s =>
      simp only [signS3Request]
      refine ⟨(s3Finish_set_false _ _ _ _ _ _ _ _ _ hset).1,
        (s3Finish_set_false _ _ _ _ _ _ _ _ _ hset).2.1,
        (s3Finish_set_false _ _ _ _ _ _ _ _ _ hset).2.2.1,
        (s3Finish_set_false _ _ _ _ _ _ _ _ _ hset).2.2.2.1, ?_⟩
      rw [(s3Finish_set_false _ _ _ _ _ _ _ _ _ hset).2.2.2.2 rfl]
      exact rfl
    | urlObj u =>
      simp only [signS3Request]
      refine ⟨(s3Finish_set_false _ _ _ _ _ _ _ _ _ hset).1,
        (s3Finish_set_false _ _ _ _ _ _ _ _ _ hset).2.1,
        (s3Finish_set_false _ _ _ _ _ _ _ _ _ hset).2.2.1,
        (s3Finish_set_false _ _ _ _ _ _ _ _ _ hset).2.2.2.1, ?_⟩
      cases hEB : (o.query && !(match u.searchParams with
          | some q => (uspGet q (str "X-Amz-Expires")).isSome
          | none => false)) with
      | true =>
        simp only [hEB, hset, Bool.or_self, Bool.not_false, Bool.true_and,
          Bool.not_true, if_true]
        exact s3Finish_hostOnly toStr m hs _ uns o u _ _ _ _ hset
          (fun h => absurd h (by decide))
      | false =>
        simp only [hEB, Bool.false_and, Bool.not_false, Bool.false_eq_true,
          if_false]
        refine s3Finish_hostOnly toStr m hs _ uns o u _ _ _ _ hset ?_
        intro _
        exact signRequest_obj_after hmac sha unesc parseU toStr fmtHost prsHost
          dreg now _ (applyS3Options o) hset2 m hs _ u _

/-- C6 witness: the mutation contract at a concrete request whose url
object already has a host, with the set option disabled. -/
theorem C6_witness :
    (SignHTTPOpts.mk false false false false false none).set = false ∧
    hostOnlyChange (ReqURL.urlObj ⟨some (str "example.com"), some (str "/"), none⟩)
      (signRequest dummyHmac dummySha id (fun _ => ⟨none, none, none⟩)
        (fun _ => []) (fun _ _ => str "h") (fun _ => (none, none)) (str "r")
        (str "T") ⟨str "AKID", str "SECRET", some (str "us-east-1"), some (str "s3")⟩
        ⟨none, .urlObj ⟨some (str "example.com"), some (str "/"), none⟩, none, none⟩
        (SignHTTPOpts.mk false false false false false none)).2.url ∧
    hostOnlyChange (ReqURL.urlObj ⟨some (str "example.com"), some (str "/"), none⟩)
      (signS3Request dummyHmac dummySha id (fun _ => ⟨none, none, none⟩)
        (fun _ => []) (fun _ _ => str "h") (fun _ => (none, none)) (str "r")
        (str "T") ⟨str "AKID", str "SECRET", some (str "us-east-1"), some (str "s3")⟩
        ⟨none, .urlObj ⟨some (str "example.com"), some (str "/"), none⟩, none, none,
          none⟩
        (SignHTTPOpts.mk false false false false false none)).2.url :=
  ⟨rfl,
    (C6_set_disabled_mutates_only_missing_url_host dummyHmac dummySha id
      (fun _ => ⟨none, none, none⟩) (fun _ => []) (fun _ _ => str "h")
      (fun _ => (none, none)) (str "r") (str "T")
      ⟨str "AKID", str "SECRET", some (str "us-east-1"), some (str "s3")⟩
      ⟨none, .urlObj ⟨some (str "example.com"), some (str "/"), none⟩, none, none⟩
      ⟨none, .urlObj ⟨some (str "example.com"), some (str "/"), none⟩, none, none,
        none⟩
      (SignHTTPOpts.mk false false false false false none) rfl).1.2.2.2,
    (C6_set_disabled_mutates_only_missing_url_host dummyHmac dummySha id
      (fun _ => ⟨none, none, none⟩) (fun _ => []) (fun _ _ => str "h")
      (fun _ => (none, none)) (str "r") (str "T")
      ⟨str "AKID", str "SECRET", some (str "us-east-1"), some (str "s3")⟩
      ⟨none, .urlObj ⟨some (str "example.com"), some (str "/"), none⟩, none, none⟩
      ⟨none, .urlObj ⟨some (str "example.com"), some (str "/"), none⟩, none, none,
        none⟩
      (SignHTTPOpts.mk false false false false false none) rfl).2.2.2.2.2⟩

end A4S
